import Mathlib

/-!
Verification of the wasm-editor core: a shallow embedding of the piece-table
text buffer (src/mix/core/src/buffer.c) and of the modal editor state machine
(src/mix/core/src/main.c), together with proofs of the specified properties.

Bytes are modeled as `Char`, byte strings as `List Char`.  C `size_t` values
are modeled as `Nat`; the sole place where `size_t` wraparound is observable
(the `len - 1` loop bound of `motion_e` on an empty buffer, wasm32 `size_t`
being 32 bits) is rendered with an explicit `% 2^32`.  Fallible operations
return `Buffer × Bool` mirroring the C `bool` results; allocation is assumed
to succeed (allocation-failure paths leave the structure unchanged and are
not modeled).  The `g_buffer == NULL` guards of main.c are dropped: the
modeled editor states are those after `editor_init`/`editor_load_text`,
where the buffer exists.
-/

/-- The `PieceSource` enum of buffer.h. -/
inductive Source where
  | original
  | add
deriving DecidableEq, Repr

/-- The `Piece` struct of buffer.h: a contiguous range within one storage. -/
structure Piece where
  source : Source
  start : Nat
  length : Nat
deriving DecidableEq, Repr

/-- The `Buffer` struct of buffer.h.  Capacities and the lazily rebuilt line
cache are not stored: the line index is recomputed from the content at each
line query, which is observationally what `rebuild_line_cache` produces. -/
structure Buffer where
  original : List Char
  add_buffer : List Char
  pieces : List Piece
  total_length : Nat
deriving DecidableEq, Repr

/-- Which storage a piece designates (the `source` ternary in buffer.c). -/
def storage (b : Buffer) : Source → List Char
  | .original => b.original
  | .add => b.add_buffer

def dummyPiece : Piece := ⟨Source.original, 0, 0⟩

/-- The bytes a single piece contributes to the document. -/
def pieceText (b : Buffer) (p : Piece) : List Char :=
  ((storage b p.source).drop p.start).take p.length

/-- Concatenated content of a piece list. -/
def contentsOf (b : Buffer) (ps : List Piece) : List Char :=
  (ps.map (pieceText b)).flatten

/-- The document content: concatenation of all pieces in order. -/
def contents (b : Buffer) : List Char := contentsOf b b.pieces

/-- Sum of piece lengths. -/
def sumLen (ps : List Piece) : Nat := (ps.map Piece.length).sum

/-- A piece designates a valid sub-range of its storage. -/
def inRange (b : Buffer) (p : Piece) : Prop :=
  p.start + p.length ≤ (storage b p.source).length

instance (b : Buffer) (p : Piece) : Decidable (inRange b p) := by
  unfold inRange; infer_instance

/-- The buffer representation invariant (spec §3): cached total length is the
sum of piece lengths, every piece is non-empty, every piece is in range. -/
def Wf (b : Buffer) : Prop :=
  b.total_length = sumLen b.pieces ∧
  (∀ p ∈ b.pieces, 0 < p.length) ∧
  (∀ p ∈ b.pieces, inRange b p)

instance (b : Buffer) : Decidable (Wf b) := by
  unfold Wf; infer_instance

/-- `buffer_create` (buffer.c:108).  A NULL or empty initial string yields an
empty piece list; otherwise a single ORIGINAL piece covers the content. -/
def buffer_create (initial : List Char) : Buffer :=
  if initial.isEmpty then
    { original := [], add_buffer := [], pieces := [], total_length := 0 }
  else
    { original := initial, add_buffer := [],
      pieces := [⟨Source.original, 0, initial.length⟩],
      total_length := initial.length }

/-- `buffer_length` (buffer.c:169). -/
def buffer_length (b : Buffer) : Nat := b.total_length

/-- The loop of `find_piece_at` (buffer.c:82): walk pieces accumulating
length; return index and offset of the piece containing `position`. -/
def find_piece_aux (position : Nat) : List Piece → Nat → Nat → Option (Nat × Nat)
  | [], _, _ => none
  | p :: rest, idx, cur =>
    if position < cur + p.length then some (idx, position - cur)
    else find_piece_aux position rest (idx + 1) (cur + p.length)

/-- `find_piece_at` (buffer.c:82): position equal to the total length is legal
and yields `(piece_count, 0)`. -/
def find_piece_at (b : Buffer) (position : Nat) : Option (Nat × Nat) :=
  match find_piece_aux position b.pieces 0 0 with
  | some r => some r
  | none => if position = b.total_length then some (b.pieces.length, 0) else none

/-- `buffer_insert` (buffer.c:179).  Returns the new buffer and the C `bool`
result.  The failing guard paths return the buffer unchanged; the (under the
invariant unreachable) `find_piece_at` failure happens after the add-storage
append, as in the source. -/
def buffer_insert (b : Buffer) (position : Nat) (text : List Char) : Buffer × Bool :=
  if text.isEmpty then (b, false)
  else if position > b.total_length then (b, false)
  else
    let add_start := b.add_buffer.length
    let b1 : Buffer := { b with add_buffer := b.add_buffer ++ text }
    match find_piece_at b1 position with
    | none => (b1, false)
    | some (piece_idx, offset) =>
      let new_piece : Piece := ⟨Source.add, add_start, text.length⟩
      let pieces' :=
        if piece_idx = b1.pieces.length then
          -- insert at end
          b1.pieces ++ [new_piece]
        else if offset = 0 then
          -- insert before piece
          b1.pieces.take piece_idx ++ new_piece :: b1.pieces.drop piece_idx
        else
          -- split piece
          let old := b1.pieces.getD piece_idx dummyPiece
          b1.pieces.take piece_idx ++
            ⟨old.source, old.start, offset⟩ ::
            new_piece ::
            ⟨old.source, old.start + offset, old.length - offset⟩ ::
            b1.pieces.drop (piece_idx + 1)
      ({ b1 with pieces := pieces', total_length := b1.total_length + text.length }, true)

/-- The sweep at buffer.c:299 removing zero-length pieces. -/
def removeZeroPieces (ps : List Piece) : List Piece :=
  ps.filter (fun p => p.length ≠ 0)

/-- `buffer_delete` (buffer.c:237). -/
def buffer_delete (b : Buffer) (position length : Nat) : Buffer × Bool :=
  if length = 0 then (b, false)
  else if position + length > b.total_length then (b, false)
  else
    match find_piece_at b position, find_piece_at b (position + length) with
    | some (start_piece, start_offset), some (end_piece, end_offset) =>
      let pieces' :=
        if start_piece = end_piece then
          let piece := b.pieces.getD start_piece dummyPiece
          if start_offset = 0 ∧ end_offset = piece.length then
            -- delete entire piece
            b.pieces.take start_piece ++ b.pieces.drop (start_piece + 1)
          else if start_offset = 0 then
            -- delete from start
            b.pieces.take start_piece ++
              ⟨piece.source, piece.start + length, piece.length - length⟩ ::
              b.pieces.drop (start_piece + 1)
          else if end_offset = piece.length then
            -- delete to end
            b.pieces.take start_piece ++
              ⟨piece.source, piece.start, start_offset⟩ ::
              b.pieces.drop (start_piece + 1)
          else
            -- split piece
            b.pieces.take start_piece ++
              ⟨piece.source, piece.start, start_offset⟩ ::
              ⟨piece.source, piece.start + end_offset, piece.length - end_offset⟩ ::
              b.pieces.drop (start_piece + 1)
        else
          -- multi-piece delete: trim first, trim last, drop the middle,
          -- then sweep out empty pieces
          let first := b.pieces.getD start_piece dummyPiece
          let lastPart : List Piece :=
            if end_piece < b.pieces.length then
              let last := b.pieces.getD end_piece dummyPiece
              ⟨last.source, last.start + end_offset, last.length - end_offset⟩ ::
                b.pieces.drop (end_piece + 1)
            else []
          removeZeroPieces
            (b.pieces.take start_piece ++
              ⟨first.source, first.start, start_offset⟩ :: lastPart)
      ({ b with pieces := pieces', total_length := b.total_length - length }, true)
    | _, _ => (b, false)

/-- `buffer_char_at` (buffer.c:315): NUL sentinel when out of range. -/
def buffer_char_at (b : Buffer) (position : Nat) : Char :=
  if position ≥ b.total_length then Char.ofNat 0
  else
    match find_piece_at b position with
    | none => Char.ofNat 0
    | some (piece_idx, offset) =>
      let p := b.pieces.getD piece_idx dummyPiece
      (storage b p.source).getD (p.start + offset) (Char.ofNat 0)

/-- The copying loop of `buffer_get_text` (buffer.c:338), carrying `written`
and `current_pos` exactly as the source does. -/
def get_text_aux (b : Buffer) (start len : Nat) : List Piece → Nat → Nat → List Char
  | [], _, _ => []
  | p :: rest, written, current_pos =>
    if written < len then
      let piece_end := current_pos + p.length
      if piece_end > start then
        let copy_start := if start > current_pos then start - current_pos else 0
        let copy_end := if start + len < piece_end then start + len - current_pos
                        else p.length
        let copy_len := copy_end - copy_start
        let chunk := ((storage b p.source).drop (p.start + copy_start)).take copy_len
        chunk ++ get_text_aux b start len rest (written + copy_len) piece_end
      else
        get_text_aux b start len rest written piece_end
    else []

/-- `buffer_get_text` (buffer.c:329). -/
def buffer_get_text (b : Buffer) (start len : Nat) : Option (List Char) :=
  if start + len > b.total_length then none
  else some (get_text_aux b start len b.pieces 0 0)

/-- `buffer_get_all` (buffer.c:364). -/
def buffer_get_all (b : Buffer) : Option (List Char) :=
  buffer_get_text b 0 b.total_length

/-- The list `buffer_get_all` produces (its range check never fires). -/
def getAllList (b : Buffer) : List Char :=
  get_text_aux b 0 b.total_length b.pieces 0 0

/-- The `strncmp(text + i, needle, needle_len) == 0` test of buffer.c:463. -/
def matchesAt (text needle : List Char) (i : Nat) : Bool :=
  decide ((text.drop i).take needle.length = needle)

/-- The scanning loop of `buffer_find_next` (buffer.c:462). -/
def find_next_aux (text needle : List Char) (total : Nat) (i : Nat) : Option Nat :=
  if h : i + needle.length ≤ total then
    if matchesAt text needle i then some i
    else find_next_aux text needle total (i + 1)
  else none
termination_by total + 1 - i
decreasing_by
  have : i ≤ total := le_trans (Nat.le_add_right i needle.length) h
  omega

/-- `buffer_find_next` (buffer.c:453). -/
def buffer_find_next (b : Buffer) (start : Nat) (needle : List Char) : Option Nat :=
  if needle.isEmpty then none
  else find_next_aux (getAllList b) needle b.total_length start

/-- `buffer_replace` (buffer.c:494): delete then (if non-empty) insert. -/
def buffer_replace (b : Buffer) (position old_length : Nat)
    (new_text : List Char) : Buffer × Bool :=
  let d := buffer_delete b position old_length
  if d.2 = false then (d.1, false)
  else if 0 < new_text.length then
    let i := buffer_insert d.1 position new_text
    if i.2 = false then (i.1, false) else (i.1, true)
  else (d.1, true)

/-! ### Line index (rebuild_line_cache, buffer.c:43, and the line queries) -/

/-- Offsets just after each newline of `text`, scanning from index `i`:
the entries `rebuild_line_cache` writes after the leading 0. -/
def newlinePositions : List Char → Nat → List Nat
  | [], _ => []
  | c :: rest, i =>
    if c = '\n' then (i + 1) :: newlinePositions rest (i + 1)
    else newlinePositions rest (i + 1)

/-- The rebuilt line index of a text: offset 0, then one offset after every
newline (buffer.c:68). -/
def lineStartsOf (text : List Char) : List Nat :=
  0 :: newlinePositions text 0

/-- The buffer's (lazily rebuilt) line index. -/
def lineStarts (b : Buffer) : List Nat :=
  lineStartsOf (getAllList b)

/-- `buffer_line_count` (buffer.c:173). -/
def buffer_line_count (b : Buffer) : Nat := (lineStarts b).length

/-- `buffer_line_start` (buffer.c:393). -/
def buffer_line_start (b : Buffer) (line_number : Nat) : Nat :=
  if line_number ≥ buffer_line_count b then b.total_length
  else (lineStarts b).getD line_number 0

/-- `buffer_line_length` (buffer.c:404): includes the trailing newline. -/
def buffer_line_length (b : Buffer) (line_number : Nat) : Nat :=
  if line_number ≥ buffer_line_count b then 0
  else
    let s := (lineStarts b).getD line_number 0
    let e := if line_number + 1 < buffer_line_count b
             then (lineStarts b).getD (line_number + 1) 0
             else b.total_length
    e - s

/-- The scanning loop of `buffer_pos_to_line_col` (buffer.c:425), with its
non-breaking first branch rendered verbatim.  The loop runs at most
`count - i` iterations, so it is written with structural recursion on that
remaining-iteration bound (the `i < count` loop test is kept verbatim and is
the one that fires, since the bound never runs out first). -/
def ptlcAux (starts : List Nat) (count position : Nat) :
    Nat → Nat → Nat → Nat → Nat × Nat
  | 0, _, line, col => (line, col)
  | rem + 1, i, line, col =>
    if i < count then
      if i + 1 < count ∧ starts.getD (i + 1) 0 ≤ position then
        ptlcAux starts count position rem (i + 1) (i + 1)
          (position - starts.getD (i + 1) 0)
      else if starts.getD i 0 ≤ position then
        (i, position - starts.getD i 0)
      else
        ptlcAux starts count position rem (i + 1) line col
    else (line, col)

/-- `buffer_pos_to_line_col` (buffer.c:418). -/
def buffer_pos_to_line_col (b : Buffer) (position : Nat) : Nat × Nat :=
  ptlcAux (lineStarts b) (buffer_line_count b) position
    (buffer_line_count b) 0 0 position

/-- `buffer_line_col_to_pos` (buffer.c:437): clamps the line to the last
line and the column to the (newline-inclusive) line length. -/
def buffer_line_col_to_pos (b : Buffer) (line col : Nat) : Nat :=
  let count := buffer_line_count b
  let line' := if line ≥ count then count - 1 else line
  let ls := (lineStarts b).getD line' 0
  let ll := buffer_line_length b line'
  let col' := if col > ll then ll else col
  ls + col'

/-! ### Editor state machine (main.c) -/

/-- The `EditorMode` enum of main.c (codes 0..4). -/
inductive EditorMode where
  | normal
  | insertMode
  | visual
  | command
  | searchMode
deriving DecidableEq, Repr

/-- The global editor state of main.c: `g_buffer`, `g_cursor`, `g_mode`,
`g_selection_start`, `g_has_selection`, `g_search_pattern`. -/
structure EditorState where
  buffer : Buffer
  cursor_pos : Nat
  cursor_line : Nat
  cursor_col : Nat
  preferred_column : Nat
  mode : EditorMode
  selection_start : Nat
  has_selection : Bool
  search_pattern : List Char
deriving DecidableEq, Repr

/-- `update_cursor_line_col` (main.c:118). -/
def update_cursor_line_col (e : EditorState) : EditorState :=
  let lc := buffer_pos_to_line_col e.buffer e.cursor_pos
  { e with cursor_line := lc.1, cursor_col := lc.2 }

/-- `clamp_cursor` (main.c:123). -/
def clamp_cursor (e : EditorState) : EditorState :=
  let len := buffer_length e.buffer
  let e1 := if e.cursor_pos > len then { e with cursor_pos := len } else e
  update_cursor_line_col e1

/-- The global state right after `editor_init` (also the state of the C
globals at startup once a buffer exists). -/
def init_state : EditorState :=
  { buffer := buffer_create [], cursor_pos := 0, cursor_line := 0, cursor_col := 0,
    preferred_column := 0, mode := .normal, selection_start := 0,
    has_selection := false, search_pattern := [] }

/-- `editor_init` (main.c:44): fresh empty buffer, cursor zeroed, NORMAL
mode, selection cleared; the anchor value and search register are untouched. -/
def editor_init (e : EditorState) : EditorState :=
  { e with buffer := buffer_create [],
           cursor_pos := 0, cursor_line := 0, cursor_col := 0, preferred_column := 0,
           mode := .normal, has_selection := false }

/-- `editor_load_text` (main.c:61): fresh buffer from `text`, cursor zeroed;
mode, selection anchor, `has_selection` and search register untouched. -/
def editor_load_text (e : EditorState) (text : List Char) : EditorState :=
  { e with buffer := buffer_create text,
           cursor_pos := 0, cursor_line := 0, cursor_col := 0, preferred_column := 0 }

/-- `insert_text` (main.c:103): host-facing edit; the cursor is not touched. -/
def insert_text (e : EditorState) (position : Nat) (text : List Char) :
    EditorState × Bool :=
  let r := buffer_insert e.buffer position text
  ({ e with buffer := r.1 }, r.2)

/-- `delete_text` (main.c:109): host-facing edit; the cursor is not touched. -/
def delete_text (e : EditorState) (position len : Nat) : EditorState × Bool :=
  let r := buffer_delete e.buffer position len
  ({ e with buffer := r.1 }, r.2)

/-- `set_cursor_position` (main.c:149). -/
def set_cursor_position (e : EditorState) (position : Nat) : EditorState :=
  let e1 := clamp_cursor { e with cursor_pos := position }
  { e1 with preferred_column := e1.cursor_col }

/-- `set_mode` (main.c:165). -/
def set_mode (e : EditorState) (m : EditorMode) : EditorState :=
  let e1 := { e with mode := m }
  if m = .visual then
    { e1 with selection_start := e1.cursor_pos, has_selection := true }
  else if m = .normal then
    { e1 with has_selection := false }
  else e1

/-- `get_selection_end` (main.c:474). -/
def get_selection_end (e : EditorState) : Nat :=
  if e.has_selection then
    if e.selection_start > e.cursor_pos then e.selection_start else e.cursor_pos
  else e.cursor_pos

/-- `set_search_pattern` (main.c:486): truncate to 255 bytes. -/
def set_search_pattern (e : EditorState) (pat : List Char) : EditorState :=
  { e with search_pattern := pat.take 255 }

/-- `search_next` (main.c:492): search from `position + 1`, wrapping to 0. -/
def search_next (e : EditorState) : EditorState × Bool :=
  if e.search_pattern.isEmpty then (e, false)
  else
    match buffer_find_next e.buffer (e.cursor_pos + 1) e.search_pattern with
    | some found =>
      let e1 := update_cursor_line_col { e with cursor_pos := found }
      ({ e1 with preferred_column := e1.cursor_col }, true)
    | none =>
      match buffer_find_next e.buffer 0 e.search_pattern with
      | some found =>
        let e1 := update_cursor_line_col { e with cursor_pos := found }
        ({ e1 with preferred_column := e1.cursor_col }, true)
      | none => (e, false)

/-- `delete_line` (main.c:444). -/
def delete_line (e : EditorState) : EditorState × Bool :=
  let ls := buffer_line_start e.buffer e.cursor_line
  let ll := buffer_line_length e.buffer e.cursor_line
  let r := buffer_delete e.buffer ls ll
  if r.2 then
    (clamp_cursor { e with buffer := r.1, cursor_pos := ls }, true)
  else
    ({ e with buffer := r.1 }, false)

/-- The whitespace test used by the word motions of main.c. -/
def isWordSep (c : Char) : Bool :=
  c == ' ' || c == '\t' || c == '\n'

/-- The whitespace-skipping loop of `motion_e` (main.c:320). -/
def skipSpace (b : Buffer) (len : Nat) (pos : Nat) : Nat :=
  if pos < len then
    if isWordSep (buffer_char_at b pos) then skipSpace b len (pos + 1) else pos
  else pos
termination_by len - pos

/-- The end-of-word loop of `motion_e` (main.c:327): runs while
`pos < bound`, where `bound` is the `size_t` value of `len - 1`. -/
def wordEndScan (b : Buffer) (bound : Nat) (pos : Nat) : Nat :=
  if pos < bound then
    if isWordSep (buffer_char_at b (pos + 1)) then pos
    else wordEndScan b bound (pos + 1)
  else pos
termination_by bound - pos

/-- wasm32 `size_t` modulus. -/
def SIZE_MOD : Nat := 4294967296

/-- `motion_e` (main.c:310).  The loop bound `len - 1` is computed in
`size_t` arithmetic and wraps to `2^32 - 1` when `len = 0`. -/
def motion_e (e : EditorState) : EditorState :=
  let len := buffer_length e.buffer
  let pos0 := e.cursor_pos
  let pos1 := if pos0 < len then pos0 + 1 else pos0
  let pos2 := skipSpace e.buffer len pos1
  let bound := (len + (SIZE_MOD - 1)) % SIZE_MOD
  let pos3 := wordEndScan e.buffer bound pos2
  let e1 := update_cursor_line_col { e with cursor_pos := pos3 }
  { e1 with preferred_column := e1.cursor_col }

/-! ### Edit-operation sequences (for the invariant claims) -/

/-- A host-level edit: `buffer_insert` or `buffer_delete`. -/
inductive EditOp where
  | ins (position : Nat) (text : List Char)
  | del (position : Nat) (length : Nat)

/-- Apply one edit, keeping the buffer a failed call returns. -/
def applyOp (b : Buffer) : EditOp → Buffer
  | .ins pos t => (buffer_insert b pos t).1
  | .del pos n => (buffer_delete b pos n).1

/-- Apply a sequence of edits in order. -/
def applyOps (b : Buffer) (ops : List EditOp) : Buffer :=
  ops.foldl applyOp b

/-- A literal occurrence of `pat` at offset `i` in a document whose content
is `t` and whose cached length is `total`: the loop-bound test of
`buffer_find_next` together with its `strncmp` byte comparison. -/
def occursAt (t pat : List Char) (total i : Nat) : Prop :=
  i + pat.length ≤ total ∧ (t.drop i).take pat.length = pat

instance (t pat : List Char) (total i : Nat) : Decidable (occursAt t pat total i) := by
  unfold occursAt; infer_instance

/-- The search scenario of spec §8: load a document, store pattern "the". -/
def c7demo : EditorState :=
  set_search_pattern (editor_load_text init_state
    ("find the needle in the haystack".toList)) ("the".toList)

/-- The delete-line scenario of spec §8: cursor at the start of line 1. -/
def c8demo : EditorState :=
  set_cursor_position (editor_load_text init_state ("line1\nline2\nline3".toList)) 6

/-- A document whose last line is the empty line after the final newline,
with the cursor on that empty line. -/
def c8edge : EditorState :=
  set_cursor_position (editor_load_text init_state ("a\n".toList)) 2

/-! ### Basic lemmas: piece sums and contents -/

theorem sumLen_nil : sumLen [] = 0 := rfl

theorem sumLen_cons (p : Piece) (ps : List Piece) :
    sumLen (p :: ps) = p.length + sumLen ps := by
  simp [sumLen]

theorem sumLen_append (l₁ l₂ : List Piece) :
    sumLen (l₁ ++ l₂) = sumLen l₁ + sumLen l₂ := by
  simp [sumLen]

theorem contentsOf_nil (b : Buffer) : contentsOf b [] = [] := rfl

theorem contentsOf_cons (b : Buffer) (p : Piece) (ps : List Piece) :
    contentsOf b (p :: ps) = pieceText b p ++ contentsOf b ps := by
  simp [contentsOf]

theorem contentsOf_append (b : Buffer) (l₁ l₂ : List Piece) :
    contentsOf b (l₁ ++ l₂) = contentsOf b l₁ ++ contentsOf b l₂ := by
  simp [contentsOf]

theorem pieceText_length (b : Buffer) (p : Piece) (h : inRange b p) :
    (pieceText b p).length = p.length := by
  unfold inRange at h
  simp only [pieceText, List.length_take, List.length_drop]
  omega

theorem contentsOf_length (b : Buffer) (ps : List Piece)
    (h : ∀ p ∈ ps, inRange b p) :
    (contentsOf b ps).length = sumLen ps := by
  induction ps with
  | nil => rfl
  | cons p rest ih =>
    rw [contentsOf_cons, sumLen_cons, List.length_append,
      pieceText_length b p (h p (by simp)),
      ih (fun q hq => h q (by simp [hq]))]

theorem inRange_of_zero_length (b : Buffer) (p : Piece) (h : p.length = 0) :
    pieceText b p = [] := by
  simp [pieceText, h]

theorem sumLen_filter (ps : List Piece) :
    sumLen (removeZeroPieces ps) = sumLen ps := by
  induction ps with
  | nil => rfl
  | cons p rest ih =>
    by_cases h : p.length = 0
    · simp [removeZeroPieces, List.filter, h, sumLen_cons] at *
      omega
    · simp [removeZeroPieces, List.filter, h, sumLen_cons] at *
      omega

theorem contentsOf_filter (b : Buffer) (ps : List Piece) :
    contentsOf b (removeZeroPieces ps) = contentsOf b ps := by
  induction ps with
  | nil => rfl
  | cons p rest ih =>
    by_cases h : p.length = 0
    · have hp : pieceText b p = [] := inRange_of_zero_length b p h
      simp [removeZeroPieces, List.filter_cons, h, contentsOf_cons, hp] at ih ⊢
      exact ih
    · simp [removeZeroPieces, List.filter_cons, h, contentsOf_cons] at ih ⊢
      rw [ih]

theorem mem_filter_sub (ps : List Piece) (p : Piece)
    (h : p ∈ removeZeroPieces ps) : p ∈ ps :=
  List.mem_of_mem_filter h

theorem pos_of_mem_filter (ps : List Piece) (p : Piece)
    (h : p ∈ removeZeroPieces ps) : 0 < p.length := by
  have := List.of_mem_filter h
  simp at this
  omega

/-- Extending the add storage does not change any in-range piece's text. -/
theorem pieceText_ext (b : Buffer) (s : List Char) (p : Piece) (h : inRange b p) :
    pieceText { b with add_buffer := b.add_buffer ++ s } p = pieceText b p := by
  unfold pieceText inRange storage at *
  cases hsrc : p.source with
  | original => simp [hsrc]
  | add =>
    simp only [hsrc] at h ⊢
    rw [List.drop_append_of_le_length (by omega)]
    rw [List.take_append_of_le_length (by simp; omega)]

theorem inRange_ext (b : Buffer) (s : List Char) (p : Piece) (h : inRange b p) :
    inRange { b with add_buffer := b.add_buffer ++ s } p := by
  unfold inRange storage at *
  cases hsrc : p.source with
  | original => simp only [hsrc] at h ⊢; exact h
  | add => simp only [hsrc] at h ⊢; simp; omega

theorem contentsOf_ext (b : Buffer) (s : List Char) (ps : List Piece)
    (h : ∀ p ∈ ps, inRange b p) :
    contentsOf { b with add_buffer := b.add_buffer ++ s } ps = contentsOf b ps := by
  unfold contentsOf
  congr 1
  exact List.map_congr_left fun p hp => pieceText_ext b s p (h p hp)

/-! ### Prefix sums of piece lengths -/

theorem sumLen_take_le (ps : List Piece) (i : Nat) :
    sumLen (ps.take i) ≤ sumLen ps := by
  conv_rhs => rw [← List.take_append_drop i ps]
  rw [sumLen_append]
  omega

theorem sumLen_take_succ (ps : List Piece) (i : Nat) (hi : i < ps.length) :
    sumLen (ps.take (i + 1)) = sumLen (ps.take i) + (ps.getD i dummyPiece).length := by
  rw [List.take_succ, sumLen_append, List.getD_eq_getElem ps dummyPiece hi]
  have : ps[i]? = some ps[i] := List.getElem?_eq_getElem hi
  simp [this, sumLen_cons, sumLen_nil]

theorem sumLen_take_mono (ps : List Piece) {i j : Nat} (h : i ≤ j) :
    sumLen (ps.take i) ≤ sumLen (ps.take j) := by
  have : ps.take i = (ps.take j).take i := by
    rw [List.take_take, Nat.min_eq_left h]
  rw [this]
  exact sumLen_take_le (ps.take j) i

theorem sumLen_split (ps : List Piece) (i : Nat) (hi : i < ps.length) :
    sumLen ps = sumLen (ps.take i) + (ps.getD i dummyPiece).length +
      sumLen (ps.drop (i + 1)) := by
  conv_lhs => rw [← List.take_append_drop i ps]
  rw [sumLen_append, List.drop_eq_getElem_cons hi, sumLen_cons,
    List.getD_eq_getElem ps dummyPiece hi]
  omega

theorem pieces_decomp (ps : List Piece) (i : Nat) (hi : i < ps.length) :
    ps = ps.take i ++ ps.getD i dummyPiece :: ps.drop (i + 1) := by
  conv_lhs => rw [← List.take_append_drop i ps]
  rw [List.drop_eq_getElem_cons hi, List.getD_eq_getElem ps dummyPiece hi]

/-! ### Characterization of find_piece_at -/

theorem find_piece_aux_none (position : Nat) :
    ∀ (ps : List Piece) (idx cur : Nat), cur ≤ position →
      (find_piece_aux position ps idx cur = none ↔ cur + sumLen ps ≤ position) := by
  intro ps
  induction ps with
  | nil => intro idx cur hc; simp [find_piece_aux, sumLen_nil]; omega
  | cons p rest ih =>
    intro idx cur hc
    rw [find_piece_aux]
    by_cases h : position < cur + p.length
    · simp only [if_pos h, sumLen_cons]
      constructor
      · intro hcontra; exact absurd hcontra (by simp)
      · intro hle; omega
    · simp only [if_neg h, sumLen_cons]
      rw [ih (idx + 1) (cur + p.length) (by omega)]
      omega

theorem find_piece_aux_some (position : Nat) :
    ∀ (ps : List Piece) (idx cur : Nat), cur ≤ position →
      ∀ {j off : Nat}, find_piece_aux position ps idx cur = some (j, off) →
      ∃ i, i < ps.length ∧ j = idx + i ∧
        cur + sumLen (ps.take i) ≤ position ∧
        position < cur + sumLen (ps.take i) + (ps.getD i dummyPiece).length ∧
        off = position - (cur + sumLen (ps.take i)) := by
  intro ps
  induction ps with
  | nil => intro idx cur _ j off h; simp [find_piece_aux] at h
  | cons p rest ih =>
    intro idx cur hc j off h
    rw [find_piece_aux] at h
    by_cases hlt : position < cur + p.length
    · rw [if_pos hlt] at h
      simp only [Option.some.injEq, Prod.mk.injEq] at h
      obtain ⟨hj, hoff⟩ := h
      refine ⟨0, by simp, by omega, ?_, ?_, ?_⟩ <;>
        simp only [List.take_zero, sumLen_nil, List.getD_cons_zero] <;> omega
    · rw [if_neg hlt] at h
      obtain ⟨i, hi, hj, hle, hlt2, hoff⟩ := ih (idx + 1) (cur + p.length) (by omega) h
      refine ⟨i + 1, by simpa using hi, by omega, ?_, ?_, ?_⟩
      · simp only [List.take_succ_cons, sumLen_cons]; omega
      · simp only [List.take_succ_cons, sumLen_cons, List.getD_cons_succ] at hlt2 ⊢
        omega
      · simp only [List.take_succ_cons, sumLen_cons]; omega

theorem find_piece_at_lt (b : Buffer) (hsum : b.total_length = sumLen b.pieces)
    {pos : Nat} (h : pos < b.total_length) :
    ∃ i off, find_piece_at b pos = some (i, off) ∧ i < b.pieces.length ∧
      sumLen (b.pieces.take i) ≤ pos ∧
      pos < sumLen (b.pieces.take i) + (b.pieces.getD i dummyPiece).length ∧
      off = pos - sumLen (b.pieces.take i) := by
  rcases hfind : find_piece_aux pos b.pieces 0 0 with _ | ⟨j, off⟩
  · rw [find_piece_aux_none pos b.pieces 0 0 (Nat.zero_le _)] at hfind
    omega
  · obtain ⟨i, hi, hj, hle, hlt2, hoff⟩ :=
      find_piece_aux_some pos b.pieces 0 0 (Nat.zero_le _) hfind
    have hji : j = i := by omega
    subst hji
    refine ⟨j, off, ?_, hi, by omega, by omega, by omega⟩
    unfold find_piece_at
    rw [hfind]

theorem find_piece_at_total (b : Buffer) (hsum : b.total_length = sumLen b.pieces) :
    find_piece_at b b.total_length = some (b.pieces.length, 0) := by
  unfold find_piece_at
  have : find_piece_aux b.total_length b.pieces 0 0 = none := by
    rw [find_piece_aux_none _ _ _ _ (Nat.zero_le _)]
    omega
  rw [this]
  simp

/-! ### get_text over the full range reproduces the piece contents -/

theorem get_text_aux_full (b : Buffer) :
    ∀ (ps : List Piece) (cur : Nat), (∀ p ∈ ps, 0 < p.length) →
      get_text_aux b 0 (cur + sumLen ps) ps cur cur = contentsOf b ps := by
  intro ps
  induction ps with
  | nil => intro cur _; rfl
  | cons p rest ih =>
    intro cur hpos
    have hp : 0 < p.length := hpos p (by simp)
    rw [get_text_aux]
    rw [if_pos (by rw [sumLen_cons]; omega)]
    rw [if_pos (by omega)]
    have hcs : ¬ (0 > cur) := by omega
    rw [if_neg hcs]
    have hce : ¬ (0 + (cur + sumLen (p :: rest)) < cur + p.length) := by
      rw [sumLen_cons]; omega
    rw [if_neg hce]
    have harg : cur + sumLen (p :: rest) = (cur + p.length) + sumLen rest := by
      rw [sumLen_cons]; omega
    rw [contentsOf_cons]
    simp only [Nat.sub_zero, Nat.add_zero]
    rw [harg, ih (cur + p.length) (fun q hq => hpos q (by simp [hq]))]
    rfl

theorem getAllList_eq (b : Buffer) (hwf : Wf b) : getAllList b = contents b := by
  unfold getAllList contents
  have h := get_text_aux_full b b.pieces 0 hwf.2.1
  rw [hwf.1]
  simpa using h

theorem buffer_get_all_eq (b : Buffer) : buffer_get_all b = some (getAllList b) := by
  unfold buffer_get_all buffer_get_text getAllList
  simp

theorem contents_length (b : Buffer) (hwf : Wf b) :
    (contents b).length = b.total_length := by
  rw [contents, contentsOf_length b b.pieces hwf.2.2, hwf.1]

/-! ### Decomposing contents at a piece boundary plus an offset -/

theorem contents_decomp (b : Buffer) {i : Nat} (hi : i < b.pieces.length) :
    contents b = contentsOf b (b.pieces.take i) ++
      pieceText b (b.pieces.getD i dummyPiece) ++
      contentsOf b (b.pieces.drop (i + 1)) := by
  conv_lhs => rw [contents, pieces_decomp b.pieces i hi]
  rw [contentsOf_append, contentsOf_cons]
  simp [List.append_assoc]

theorem contents_take_at (b : Buffer) (hwf : Wf b) {i off : Nat}
    (hi : i < b.pieces.length)
    (hoff : off ≤ (b.pieces.getD i dummyPiece).length) :
    (contents b).take (sumLen (b.pieces.take i) + off) =
      contentsOf b (b.pieces.take i) ++
        (pieceText b (b.pieces.getD i dummyPiece)).take off := by
  rw [contents_decomp b hi, List.append_assoc]
  have hlen : (contentsOf b (b.pieces.take i)).length = sumLen (b.pieces.take i) :=
    contentsOf_length b _ (fun p hp => hwf.2.2 p (List.mem_of_mem_take hp))
  rw [← hlen, List.take_append]
  congr 1
  have hplen : (pieceText b (b.pieces.getD i dummyPiece)).length =
      (b.pieces.getD i dummyPiece).length := by
    refine pieceText_length b _ (hwf.2.2 _ ?_)
    rw [List.getD_eq_getElem b.pieces dummyPiece hi]
    exact List.getElem_mem hi
  exact List.take_append_of_le_length (by omega)

theorem contents_drop_at (b : Buffer) (hwf : Wf b) {i off : Nat}
    (hi : i < b.pieces.length)
    (hoff : off ≤ (b.pieces.getD i dummyPiece).length) :
    (contents b).drop (sumLen (b.pieces.take i) + off) =
      (pieceText b (b.pieces.getD i dummyPiece)).drop off ++
        contentsOf b (b.pieces.drop (i + 1)) := by
  rw [contents_decomp b hi, List.append_assoc]
  have hlen : (contentsOf b (b.pieces.take i)).length = sumLen (b.pieces.take i) :=
    contentsOf_length b _ (fun p hp => hwf.2.2 p (List.mem_of_mem_take hp))
  rw [← hlen, List.drop_append]
  have hplen : (pieceText b (b.pieces.getD i dummyPiece)).length =
      (b.pieces.getD i dummyPiece).length := by
    refine pieceText_length b _ (hwf.2.2 _ ?_)
    rw [List.getD_eq_getElem b.pieces dummyPiece hi]
    exact List.getElem_mem hi
  rw [List.drop_append_of_le_length (by omega)]

theorem getD_mem (ps : List Piece) {i : Nat} (hi : i < ps.length) :
    ps.getD i dummyPiece ∈ ps := by
  rw [List.getD_eq_getElem ps dummyPiece hi]
  exact List.getElem_mem hi

/-! ### Storage congruence -/

theorem pieceText_congr {b b' : Buffer} (h1 : b.original = b'.original)
    (h2 : b.add_buffer = b'.add_buffer) (p : Piece) :
    pieceText b p = pieceText b' p := by
  unfold pieceText storage
  cases hs : p.source <;> simp [hs, h1, h2]

theorem contentsOf_congr {b b' : Buffer} (h1 : b.original = b'.original)
    (h2 : b.add_buffer = b'.add_buffer) (ps : List Piece) :
    contentsOf b ps = contentsOf b' ps := by
  unfold contentsOf
  congr 1
  exact List.map_congr_left fun p _ => pieceText_congr h1 h2 p

theorem inRange_congr {b b' : Buffer} (h1 : b.original = b'.original)
    (h2 : b.add_buffer = b'.add_buffer) (p : Piece) (h : inRange b p) :
    inRange b' p := by
  unfold inRange storage at *
  cases hs : p.source <;> simp [hs, ← h1, ← h2] <;> simp [hs] at h <;> exact h


theorem contents_split_front (b : Buffer) (i : Nat) :
    contents b = contentsOf b (b.pieces.take i) ++ contentsOf b (b.pieces.drop i) := by
  rw [contents, ← contentsOf_append, List.take_append_drop]

theorem contents_take_front (b : Buffer) (hwf : Wf b) (i : Nat) :
    (contents b).take (sumLen (b.pieces.take i)) = contentsOf b (b.pieces.take i) := by
  rw [contents_split_front b i]
  have hlen : (contentsOf b (b.pieces.take i)).length = sumLen (b.pieces.take i) :=
    contentsOf_length b _ (fun p hp => hwf.2.2 p (List.mem_of_mem_take hp))
  rw [← hlen, List.take_left]

theorem contents_drop_front (b : Buffer) (hwf : Wf b) (i : Nat) :
    (contents b).drop (sumLen (b.pieces.take i)) = contentsOf b (b.pieces.drop i) := by
  rw [contents_split_front b i]
  have hlen : (contentsOf b (b.pieces.take i)).length = sumLen (b.pieces.take i) :=
    contentsOf_length b _ (fun p hp => hwf.2.2 p (List.mem_of_mem_take hp))
  rw [← hlen, List.drop_left]

/-! ### Congruence to a buffer with extended add storage -/

theorem storage_original (b : Buffer) : storage b Source.original = b.original := rfl

theorem storage_add (b : Buffer) : storage b Source.add = b.add_buffer := rfl

theorem inRange_ext2 {b B : Buffer} (s : List Char)
    (h1 : B.original = b.original) (h2 : B.add_buffer = b.add_buffer ++ s)
    (p : Piece) (h : inRange b p) : inRange B p := by
  unfold inRange at h ⊢
  cases hs : p.source with
  | original =>
    rw [hs] at h
    rw [storage_original, h1]
    rw [storage_original] at h
    exact h
  | add =>
    rw [hs] at h
    rw [storage_add] at h ⊢
    rw [h2, List.length_append]
    omega

theorem pieceText_ext2 {b B : Buffer} (s : List Char)
    (h1 : B.original = b.original) (h2 : B.add_buffer = b.add_buffer ++ s)
    (p : Piece) (h : inRange b p) : pieceText B p = pieceText b p := by
  unfold pieceText inRange at *
  cases hs : p.source with
  | original =>
    rw [storage_original, storage_original, h1]
  | add =>
    rw [hs] at h
    rw [storage_add] at h
    rw [storage_add, storage_add]
    rw [h2, List.drop_append_of_le_length (by omega),
      List.take_append_of_le_length (by simp; omega)]

theorem contentsOf_ext2 {b B : Buffer} (s : List Char)
    (h1 : B.original = b.original) (h2 : B.add_buffer = b.add_buffer ++ s)
    (qs : List Piece) (h : ∀ p ∈ qs, inRange b p) :
    contentsOf B qs = contentsOf b qs := by
  unfold contentsOf
  congr 1
  exact List.map_congr_left fun p hp => pieceText_ext2 s h1 h2 p (h p hp)

/-! ### Specification of buffer_insert -/

theorem buffer_insert_spec (b : Buffer) (pos : Nat) (s : List Char) (hwf : Wf b)
    (hpos : pos ≤ b.total_length) (hs : s ≠ []) :
    (buffer_insert b pos s).2 = true ∧
    Wf (buffer_insert b pos s).1 ∧
    contents (buffer_insert b pos s).1 =
      (contents b).take pos ++ s ++ (contents b).drop pos ∧
    (buffer_insert b pos s).1.total_length = b.total_length + s.length := by
  have hse : s.isEmpty = false := by
    cases s with
    | nil => exact absurd rfl hs
    | cons c cs => rfl
  have hslen : 0 < s.length := List.length_pos.mpr hs
  have hsum1 : (({ b with add_buffer := b.add_buffer ++ s } : Buffer)).total_length =
      sumLen (({ b with add_buffer := b.add_buffer ++ s } : Buffer)).pieces := hwf.1
  rcases Nat.lt_or_ge pos b.total_length with hlt | hge
  · -- pos strictly inside the document
    obtain ⟨i, off, hfind, hi, hSle, hSlt, hoff⟩ :=
      find_piece_at_lt { b with add_buffer := b.add_buffer ++ s } hsum1 hlt
    simp only at hfind hi hSle hSlt hoff
    have hne : ¬ i = b.pieces.length := by omega
    have hmemI : b.pieces.getD i dummyPiece ∈ b.pieces := getD_mem b.pieces hi
    have hposI : 0 < (b.pieces.getD i dummyPiece).length := hwf.2.1 _ hmemI
    have hinI : inRange b (b.pieces.getD i dummyPiece) := hwf.2.2 _ hmemI
    by_cases hoff0 : off = 0
    · -- insert before piece i
      set B : Buffer :=
        { b with
          add_buffer := b.add_buffer ++ s,
          pieces := b.pieces.take i ++
            ⟨Source.add, b.add_buffer.length, s.length⟩ :: b.pieces.drop i,
          total_length := b.total_length + s.length } with hB
      have hres : buffer_insert b pos s = (B, true) := by
        simp only [buffer_insert, hse, Bool.false_eq_true, if_false,
          if_neg (by omega : ¬ pos > b.total_length)]
        rw [hfind]
        simp [hne, hoff0]
      rw [hres]
      have hposS : pos = sumLen (b.pieces.take i) := by omega
      have hR : ∀ q ∈ b.pieces, inRange B q := fun q hq =>
        inRange_ext2 (b := b) (B := B) s rfl rfl q (hwf.2.2 q hq)
      have hext : ∀ (qs : List Piece), (∀ q ∈ qs, q ∈ b.pieces) →
          contentsOf B qs = contentsOf b qs := fun qs hqs =>
        contentsOf_ext2 (b := b) (B := B) s rfl rfl qs (fun q hq => hwf.2.2 q (hqs q hq))
      refine ⟨rfl, ⟨?_, ?_, ?_⟩, ?_, rfl⟩
      · show b.total_length + s.length = sumLen _
        rw [sumLen_append, sumLen_cons]
        show b.total_length + s.length =
          sumLen (b.pieces.take i) + (s.length + sumLen (b.pieces.drop i))
        have hsp := sumLen_append (b.pieces.take i) (b.pieces.drop i)
        rw [List.take_append_drop] at hsp
        rw [hwf.1]
        omega
      · intro p hp
        rcases List.mem_append.mp hp with h | h
        · exact hwf.2.1 p (List.mem_of_mem_take h)
        · rcases List.mem_cons.mp h with h | h
          · rw [h]; exact hslen
          · exact hwf.2.1 p (List.mem_of_mem_drop h)
      · intro p hp
        rcases List.mem_append.mp hp with h | h
        · exact hR p (List.mem_of_mem_take h)
        · rcases List.mem_cons.mp h with h | h
          · rw [h]
            show b.add_buffer.length + s.length ≤ (storage B Source.add).length
            simp [hB, storage]
          · exact hR p (List.mem_of_mem_drop h)
      · show contentsOf B _ = _
        rw [contentsOf_append, contentsOf_cons]
        have hnew : pieceText B ⟨Source.add, b.add_buffer.length, s.length⟩ = s := by
          show ((storage B Source.add).drop b.add_buffer.length).take s.length = s
          have hsb : storage B Source.add = b.add_buffer ++ s := rfl
          rw [hsb, List.drop_left, List.take_length]
        rw [hext _ (fun q hq => List.mem_of_mem_take hq),
          hext _ (fun q hq => List.mem_of_mem_drop hq), hnew, hposS,
          contents_take_front b hwf i, contents_drop_front b hwf i]
        simp [List.append_assoc]
    · -- split piece i
      have hoffle : off ≤ (b.pieces.getD i dummyPiece).length := by omega
      set B : Buffer :=
        { b with
          add_buffer := b.add_buffer ++ s,
          pieces := b.pieces.take i ++
            ⟨(b.pieces.getD i dummyPiece).source, (b.pieces.getD i dummyPiece).start, off⟩ ::
            ⟨Source.add, b.add_buffer.length, s.length⟩ ::
            ⟨(b.pieces.getD i dummyPiece).source, (b.pieces.getD i dummyPiece).start + off,
              (b.pieces.getD i dummyPiece).length - off⟩ ::
            b.pieces.drop (i + 1),
          total_length := b.total_length + s.length } with hB
      have hres : buffer_insert b pos s = (B, true) := by
        simp only [buffer_insert, hse, Bool.false_eq_true, if_false,
          if_neg (by omega : ¬ pos > b.total_length)]
        rw [hfind]
        simp only [hne, if_false, if_neg hoff0]
      rw [hres]
      have hR : ∀ q ∈ b.pieces, inRange B q := fun q hq =>
        inRange_ext2 (b := b) (B := B) s rfl rfl q (hwf.2.2 q hq)
      have hinIB : inRange B (b.pieces.getD i dummyPiece) := hR _ hmemI
      have hext : ∀ (qs : List Piece), (∀ q ∈ qs, q ∈ b.pieces) →
          contentsOf B qs = contentsOf b qs := fun qs hqs =>
        contentsOf_ext2 (b := b) (B := B) s rfl rfl qs (fun q hq => hwf.2.2 q (hqs q hq))
      refine ⟨rfl, ⟨?_, ?_, ?_⟩, ?_, rfl⟩
      · show b.total_length + s.length = sumLen _
        rw [sumLen_append, sumLen_cons, sumLen_cons, sumLen_cons]
        show b.total_length + s.length =
          sumLen (b.pieces.take i) +
            (off + (s.length + ((b.pieces.getD i dummyPiece).length - off +
              sumLen (b.pieces.drop (i + 1)))))
        have hsplit := sumLen_split b.pieces i hi
        rw [hwf.1]
        omega
      · intro p hp
        rcases List.mem_append.mp hp with h | h
        · exact hwf.2.1 p (List.mem_of_mem_take h)
        · rcases List.mem_cons.mp h with h | h
          · rw [h]; simpa using Nat.pos_of_ne_zero hoff0
          · rcases List.mem_cons.mp h with h | h
            · rw [h]; exact hslen
            · rcases List.mem_cons.mp h with h | h
              · rw [h]
                show 0 < (b.pieces.getD i dummyPiece).length - off
                omega
              · exact hwf.2.1 p (List.mem_of_mem_drop h)
      · intro p hp
        rcases List.mem_append.mp hp with h | h
        · exact hR p (List.mem_of_mem_take h)
        · rcases List.mem_cons.mp h with h | h
          · rw [h]
            show (b.pieces.getD i dummyPiece).start + off ≤
              (storage B (b.pieces.getD i dummyPiece).source).length
            unfold inRange at hinIB
            omega
          · rcases List.mem_cons.mp h with h | h
            · rw [h]
              show b.add_buffer.length + s.length ≤ (storage B Source.add).length
              simp [hB, storage]
            · rcases List.mem_cons.mp h with h | h
              · rw [h]
                show ((b.pieces.getD i dummyPiece).start + off) +
                  ((b.pieces.getD i dummyPiece).length - off) ≤
                  (storage B (b.pieces.getD i dummyPiece).source).length
                unfold inRange at hinIB
                omega
              · exact hR p (List.mem_of_mem_drop h)
      · show contentsOf B _ = _
        rw [contentsOf_append, contentsOf_cons, contentsOf_cons, contentsOf_cons]
        have hnew : pieceText B ⟨Source.add, b.add_buffer.length, s.length⟩ = s := by
          show ((storage B Source.add).drop b.add_buffer.length).take s.length = s
          have hsb : storage B Source.add = b.add_buffer ++ s := rfl
          rw [hsb, List.drop_left, List.take_length]
        have hpcB : pieceText B (b.pieces.getD i dummyPiece) =
            pieceText b (b.pieces.getD i dummyPiece) :=
          pieceText_ext2 (b := b) (B := B) s rfl rfl _ hinI
        have hleft : pieceText B
            ⟨(b.pieces.getD i dummyPiece).source, (b.pieces.getD i dummyPiece).start, off⟩ =
            (pieceText b (b.pieces.getD i dummyPiece)).take off := by
          rw [← hpcB]
          show ((storage B (b.pieces.getD i dummyPiece).source).drop
              (b.pieces.getD i dummyPiece).start).take off = _
          show _ = (((storage B (b.pieces.getD i dummyPiece).source).drop
            (b.pieces.getD i dummyPiece).start).take (b.pieces.getD i dummyPiece).length).take off
          rw [List.take_take, Nat.min_eq_left hoffle]
        have hright : pieceText B
            ⟨(b.pieces.getD i dummyPiece).source, (b.pieces.getD i dummyPiece).start + off,
              (b.pieces.getD i dummyPiece).length - off⟩ =
            (pieceText b (b.pieces.getD i dummyPiece)).drop off := by
          rw [← hpcB]
          show ((storage B (b.pieces.getD i dummyPiece).source).drop
              ((b.pieces.getD i dummyPiece).start + off)).take
              ((b.pieces.getD i dummyPiece).length - off) = _
          show _ = (((storage B (b.pieces.getD i dummyPiece).source).drop
            (b.pieces.getD i dummyPiece).start).take (b.pieces.getD i dummyPiece).length).drop off
          rw [List.drop_take, List.drop_drop]
        have hposS : pos = sumLen (b.pieces.take i) + off := by omega
        rw [hext _ (fun q hq => List.mem_of_mem_take hq),
          hext _ (fun q hq => List.mem_of_mem_drop hq), hnew, hleft, hright, hposS,
          contents_take_at b hwf hi hoffle, contents_drop_at b hwf hi hoffle]
        simp [List.append_assoc]
  · -- pos = total_length: append at the end
    have hpe : pos = b.total_length := by omega
    subst hpe
    have hfind : find_piece_at { b with add_buffer := b.add_buffer ++ s }
        b.total_length = some (b.pieces.length, 0) :=
      find_piece_at_total { b with add_buffer := b.add_buffer ++ s } hsum1
    set B : Buffer :=
      { b with
        add_buffer := b.add_buffer ++ s,
        pieces := b.pieces ++ [⟨Source.add, b.add_buffer.length, s.length⟩],
        total_length := b.total_length + s.length } with hB
    have hres : buffer_insert b b.total_length s = (B, true) := by
      simp only [buffer_insert, hse, Bool.false_eq_true, if_false,
        if_neg (by omega : ¬ b.total_length > b.total_length)]
      rw [hfind]
      simp
    rw [hres]
    have hR : ∀ q ∈ b.pieces, inRange B q := fun q hq =>
      inRange_ext2 (b := b) (B := B) s rfl rfl q (hwf.2.2 q hq)
    refine ⟨rfl, ⟨?_, ?_, ?_⟩, ?_, rfl⟩
    · show b.total_length + s.length = sumLen _
      rw [sumLen_append, sumLen_cons, sumLen_nil, hwf.1]
      show sumLen b.pieces + s.length = sumLen b.pieces + (s.length + 0)
      omega
    · intro p hp
      rcases List.mem_append.mp hp with h | h
      · exact hwf.2.1 p h
      · rcases List.mem_cons.mp h with h | h
        · rw [h]; exact hslen
        · simp at h
    · intro p hp
      rcases List.mem_append.mp hp with h | h
      · exact hR p h
      · rcases List.mem_cons.mp h with h | h
        · rw [h]
          show b.add_buffer.length + s.length ≤ (storage B Source.add).length
          simp [hB, storage]
        · simp at h
    · show contentsOf B _ = _
      rw [contentsOf_append, contentsOf_cons, contentsOf_nil]
      have hctk : contentsOf B b.pieces = contentsOf b b.pieces :=
        contentsOf_ext2 (b := b) (B := B) s rfl rfl _ hwf.2.2
      have hnew : pieceText B ⟨Source.add, b.add_buffer.length, s.length⟩ = s := by
        show ((storage B Source.add).drop b.add_buffer.length).take s.length = s
        have hsb : storage B Source.add = b.add_buffer ++ s := rfl
        rw [hsb, List.drop_left, List.take_length]
      have hclen : (contents b).length = b.total_length := contents_length b hwf
      rw [hctk, hnew, ← contents, ← hclen, List.take_length, List.drop_length]
      simp

/-! ### Sub-piece helpers -/

theorem pieceText_take_piece (b : Buffer) (p : Piece) (off : Nat) (hoff : off ≤ p.length) :
    pieceText b ⟨p.source, p.start, off⟩ = (pieceText b p).take off := by
  show ((storage b p.source).drop p.start).take off = _
  rw [pieceText, List.take_take, Nat.min_eq_left hoff]

theorem pieceText_drop_piece (b : Buffer) (p : Piece) (off : Nat) :
    pieceText b ⟨p.source, p.start + off, p.length - off⟩ = (pieceText b p).drop off := by
  show ((storage b p.source).drop (p.start + off)).take (p.length - off) = _
  rw [pieceText, List.drop_take, List.drop_drop]

theorem inRange_within (b : Buffer) (p : Piece) (st len : Nat) (h : inRange b p)
    (hb : st + len ≤ p.start + p.length) : inRange b ⟨p.source, st, len⟩ := by
  unfold inRange at *
  show st + len ≤ (storage b p.source).length
  omega

/-! ### Specification of buffer_delete -/

theorem buffer_delete_spec (b : Buffer) (pos n : Nat) (hwf : Wf b)
    (hn : 0 < n) (hrange : pos + n ≤ b.total_length) :
    (buffer_delete b pos n).2 = true ∧
    Wf (buffer_delete b pos n).1 ∧
    contents (buffer_delete b pos n).1 =
      (contents b).take pos ++ (contents b).drop (pos + n) ∧
    (buffer_delete b pos n).1.total_length = b.total_length - n := by
  have hposlt : pos < b.total_length := by omega
  obtain ⟨i, so, hfind1, hi, hSle, hSlt, hso⟩ := find_piece_at_lt b hwf.1 hposlt
  have hmemI : b.pieces.getD i dummyPiece ∈ b.pieces := getD_mem b.pieces hi
  have hinI : inRange b (b.pieces.getD i dummyPiece) := hwf.2.2 _ hmemI
  have hposI : 0 < (b.pieces.getD i dummyPiece).length := hwf.2.1 _ hmemI
  have hsoLt : so < (b.pieces.getD i dummyPiece).length := by omega
  have hposS : pos = sumLen (b.pieces.take i) + so := by omega
  rcases Nat.lt_or_ge (pos + n) b.total_length with hlt2 | hge2
  · -- deletion ends strictly inside the document
    obtain ⟨j, eo, hfind2, hj, hSje, hSjlt, heo⟩ := find_piece_at_lt b hwf.1 hlt2
    have hmemJ : b.pieces.getD j dummyPiece ∈ b.pieces := getD_mem b.pieces hj
    have hinJ : inRange b (b.pieces.getD j dummyPiece) := hwf.2.2 _ hmemJ
    have heoLt : eo < (b.pieces.getD j dummyPiece).length := by omega
    have hposE : pos + n = sumLen (b.pieces.take j) + eo := by omega
    by_cases hij : i = j
    · -- deletion inside a single piece
      subst hij
      by_cases hso0 : so = 0
      · -- delete from the start of the piece
        have hn_eo : n = eo := by omega
        set B : Buffer :=
          { b with
            pieces := b.pieces.take i ++
              ⟨(b.pieces.getD i dummyPiece).source, (b.pieces.getD i dummyPiece).start + n,
                (b.pieces.getD i dummyPiece).length - n⟩ ::
              b.pieces.drop (i + 1),
            total_length := b.total_length - n } with hB
        have hres : buffer_delete b pos n = (B, true) := by
          simp only [buffer_delete, if_neg (by omega : ¬ n = 0),
            if_neg (by omega : ¬ pos + n > b.total_length)]
          simp only [hfind1, hfind2]
          rw [if_pos trivial]
          rw [if_neg (by omega :
            ¬ (so = 0 ∧ eo = (b.pieces.getD i dummyPiece).length))]
          rw [if_pos hso0]
        rw [hres]
        have hR : ∀ q ∈ b.pieces, inRange B q := fun q hq =>
          inRange_congr rfl rfl q (hwf.2.2 q hq)
        have hext : ∀ (qs : List Piece), contentsOf B qs = contentsOf b qs :=
          fun qs => contentsOf_congr rfl rfl qs
        have hptx : ∀ q : Piece, pieceText B q = pieceText b q :=
          fun q => pieceText_congr rfl rfl q
        refine ⟨rfl, ⟨?_, ?_, ?_⟩, ?_, rfl⟩
        · show b.total_length - n = sumLen _
          rw [sumLen_append, sumLen_cons]
          show b.total_length - n = sumLen (b.pieces.take i) +
            ((b.pieces.getD i dummyPiece).length - n + sumLen (b.pieces.drop (i + 1)))
          have hsplit := sumLen_split b.pieces i hi
          rw [hwf.1]
          omega
        · intro p hp
          rcases List.mem_append.mp hp with h | h
          · exact hwf.2.1 p (List.mem_of_mem_take h)
          · rcases List.mem_cons.mp h with h | h
            · rw [h]
              show 0 < (b.pieces.getD i dummyPiece).length - n
              omega
            · exact hwf.2.1 p (List.mem_of_mem_drop h)
        · intro p hp
          rcases List.mem_append.mp hp with h | h
          · exact hR p (List.mem_of_mem_take h)
          · rcases List.mem_cons.mp h with h | h
            · rw [h]
              exact inRange_within B (b.pieces.getD i dummyPiece) _ _
                (hR _ hmemI) (by omega)
            · exact hR p (List.mem_of_mem_drop h)
        · show contentsOf B _ = _
          rw [contentsOf_append, contentsOf_cons, hext, hext, hptx,
            pieceText_drop_piece]
          have h1 : (contents b).take pos = contentsOf b (b.pieces.take i) := by
            rw [hposS, hso0, Nat.add_zero, contents_take_front b hwf i]
          have h2 : (contents b).drop (pos + n) =
              (pieceText b (b.pieces.getD i dummyPiece)).drop eo ++
                contentsOf b (b.pieces.drop (i + 1)) := by
            rw [hposE, contents_drop_at b hwf hi (le_of_lt heoLt)]
          rw [h1, h2, hn_eo]
      · -- split the piece in two around the deleted range
        have hsoeo : so ≤ eo := by omega
        set B : Buffer :=
          { b with
            pieces := b.pieces.take i ++
              ⟨(b.pieces.getD i dummyPiece).source, (b.pieces.getD i dummyPiece).start, so⟩ ::
              ⟨(b.pieces.getD i dummyPiece).source, (b.pieces.getD i dummyPiece).start + eo,
                (b.pieces.getD i dummyPiece).length - eo⟩ ::
              b.pieces.drop (i + 1),
            total_length := b.total_length - n } with hB
        have hres : buffer_delete b pos n = (B, true) := by
          simp only [buffer_delete, if_neg (by omega : ¬ n = 0),
            if_neg (by omega : ¬ pos + n > b.total_length)]
          simp only [hfind1, hfind2]
          rw [if_pos trivial]
          rw [if_neg (by omega :
            ¬ (so = 0 ∧ eo = (b.pieces.getD i dummyPiece).length))]
          rw [if_neg hso0]
          rw [if_neg (by omega : ¬ eo = (b.pieces.getD i dummyPiece).length)]
        rw [hres]
        have hR : ∀ q ∈ b.pieces, inRange B q := fun q hq =>
          inRange_congr rfl rfl q (hwf.2.2 q hq)
        have hext : ∀ (qs : List Piece), contentsOf B qs = contentsOf b qs :=
          fun qs => contentsOf_congr rfl rfl qs
        have hptx : ∀ q : Piece, pieceText B q = pieceText b q :=
          fun q => pieceText_congr rfl rfl q
        refine ⟨rfl, ⟨?_, ?_, ?_⟩, ?_, rfl⟩
        · show b.total_length - n = sumLen _
          rw [sumLen_append, sumLen_cons, sumLen_cons]
          show b.total_length - n = sumLen (b.pieces.take i) +
            (so + ((b.pieces.getD i dummyPiece).length - eo +
              sumLen (b.pieces.drop (i + 1))))
          have hsplit := sumLen_split b.pieces i hi
          rw [hwf.1]
          omega
        · intro p hp
          rcases List.mem_append.mp hp with h | h
          · exact hwf.2.1 p (List.mem_of_mem_take h)
          · rcases List.mem_cons.mp h with h | h
            · rw [h]
              show 0 < so
              omega
            · rcases List.mem_cons.mp h with h | h
              · rw [h]
                show 0 < (b.pieces.getD i dummyPiece).length - eo
                omega
              · exact hwf.2.1 p (List.mem_of_mem_drop h)
        · intro p hp
          rcases List.mem_append.mp hp with h | h
          · exact hR p (List.mem_of_mem_take h)
          · rcases List.mem_cons.mp h with h | h
            · rw [h]
              exact inRange_within B (b.pieces.getD i dummyPiece) _ _
                (hR _ hmemI) (by omega)
            · rcases List.mem_cons.mp h with h | h
              · rw [h]
                exact inRange_within B (b.pieces.getD i dummyPiece) _ _
                  (hR _ hmemI) (by omega)
              · exact hR p (List.mem_of_mem_drop h)
        · show contentsOf B _ = _
          rw [contentsOf_append, contentsOf_cons, contentsOf_cons, hext, hext,
            hptx, hptx, pieceText_take_piece b _ _ (le_of_lt hsoLt),
            pieceText_drop_piece]
          have h1 : (contents b).take pos =
              contentsOf b (b.pieces.take i) ++
                (pieceText b (b.pieces.getD i dummyPiece)).take so := by
            rw [hposS, contents_take_at b hwf hi (le_of_lt hsoLt)]
          have h2 : (contents b).drop (pos + n) =
              (pieceText b (b.pieces.getD i dummyPiece)).drop eo ++
                contentsOf b (b.pieces.drop (i + 1)) := by
            rw [hposE, contents_drop_at b hwf hi (le_of_lt heoLt)]
          rw [h1, h2]
          simp [List.append_assoc]
    · -- deletion spans several pieces, ending inside piece j
      have hij' : i < j := by
        rcases Nat.lt_or_ge i j with h | h
        · exact h
        · exfalso
          have hj1 : j + 1 ≤ i := by omega
          have hmono := sumLen_take_mono b.pieces hj1
          have hsucc := sumLen_take_succ b.pieces j hj
          omega
      set B : Buffer :=
        { b with
          pieces := removeZeroPieces (b.pieces.take i ++
            ⟨(b.pieces.getD i dummyPiece).source, (b.pieces.getD i dummyPiece).start, so⟩ ::
            ⟨(b.pieces.getD j dummyPiece).source, (b.pieces.getD j dummyPiece).start + eo,
              (b.pieces.getD j dummyPiece).length - eo⟩ ::
            b.pieces.drop (j + 1)),
          total_length := b.total_length - n } with hB
      have hres : buffer_delete b pos n = (B, true) := by
        simp only [buffer_delete, if_neg (by omega : ¬ n = 0),
          if_neg (by omega : ¬ pos + n > b.total_length)]
        simp only [hfind1, hfind2]
        rw [if_neg hij]
        rw [if_pos hj]
      rw [hres]
      have hR : ∀ q ∈ b.pieces, inRange B q := fun q hq =>
        inRange_congr rfl rfl q (hwf.2.2 q hq)
      have hext : ∀ (qs : List Piece), contentsOf B qs = contentsOf b qs :=
        fun qs => contentsOf_congr rfl rfl qs
      have hptx : ∀ q : Piece, pieceText B q = pieceText b q :=
        fun q => pieceText_congr rfl rfl q
      have hsj : sumLen (b.pieces.take i) + (b.pieces.getD i dummyPiece).length ≤
          sumLen (b.pieces.take j) := by
        have hsucc := sumLen_take_succ b.pieces i hi
        have hmono := sumLen_take_mono b.pieces (by omega : i + 1 ≤ j)
        omega
      refine ⟨rfl, ⟨?_, ?_, ?_⟩, ?_, rfl⟩
      · show b.total_length - n = sumLen _
        rw [sumLen_filter, sumLen_append, sumLen_cons, sumLen_cons]
        show b.total_length - n = sumLen (b.pieces.take i) +
          (so + ((b.pieces.getD j dummyPiece).length - eo +
            sumLen (b.pieces.drop (j + 1))))
        have hsplit := sumLen_split b.pieces j hj
        rw [hwf.1]
        omega
      · intro p hp
        exact pos_of_mem_filter _ p hp
      · intro p hp
        have hp' := mem_filter_sub _ p hp
        rcases List.mem_append.mp hp' with h | h
        · exact hR p (List.mem_of_mem_take h)
        · rcases List.mem_cons.mp h with h | h
          · rw [h]
            exact inRange_within B (b.pieces.getD i dummyPiece) _ _
              (hR _ hmemI) (by omega)
          · rcases List.mem_cons.mp h with h | h
            · rw [h]
              exact inRange_within B (b.pieces.getD j dummyPiece) _ _
                (hR _ hmemJ) (by omega)
            · exact hR p (List.mem_of_mem_drop h)
      · show contentsOf B _ = _
        have hfl : contentsOf B (removeZeroPieces (b.pieces.take i ++
            ⟨(b.pieces.getD i dummyPiece).source, (b.pieces.getD i dummyPiece).start, so⟩ ::
            ⟨(b.pieces.getD j dummyPiece).source, (b.pieces.getD j dummyPiece).start + eo,
              (b.pieces.getD j dummyPiece).length - eo⟩ ::
            b.pieces.drop (j + 1))) =
            contentsOf B (b.pieces.take i ++
            ⟨(b.pieces.getD i dummyPiece).source, (b.pieces.getD i dummyPiece).start, so⟩ ::
            ⟨(b.pieces.getD j dummyPiece).source, (b.pieces.getD j dummyPiece).start + eo,
              (b.pieces.getD j dummyPiece).length - eo⟩ ::
            b.pieces.drop (j + 1)) := contentsOf_filter B _
        rw [hfl, contentsOf_append, contentsOf_cons, contentsOf_cons, hext, hext,
          hptx, hptx, pieceText_take_piece b _ _ (le_of_lt hsoLt),
          pieceText_drop_piece]
        have h1 : (contents b).take pos =
            contentsOf b (b.pieces.take i) ++
              (pieceText b (b.pieces.getD i dummyPiece)).take so := by
          rw [hposS, contents_take_at b hwf hi (le_of_lt hsoLt)]
        have h2 : (contents b).drop (pos + n) =
            (pieceText b (b.pieces.getD j dummyPiece)).drop eo ++
              contentsOf b (b.pieces.drop (j + 1)) := by
          rw [hposE, contents_drop_at b hwf hj (le_of_lt heoLt)]
        rw [h1, h2]
        simp [List.append_assoc]
  · -- deletion ends exactly at the end of the document
    have hpe : pos + n = b.total_length := by omega
    have hfind2 : find_piece_at b (pos + n) = some (b.pieces.length, 0) := by
      rw [hpe]
      exact find_piece_at_total b hwf.1
    set B : Buffer :=
      { b with
        pieces := removeZeroPieces (b.pieces.take i ++
          [⟨(b.pieces.getD i dummyPiece).source, (b.pieces.getD i dummyPiece).start, so⟩]),
        total_length := b.total_length - n } with hB
    have hres : buffer_delete b pos n = (B, true) := by
      simp only [buffer_delete, if_neg (by omega : ¬ n = 0),
        if_neg (by omega : ¬ pos + n > b.total_length)]
      simp only [hfind1, hfind2]
      rw [if_neg (by omega : ¬ i = b.pieces.length)]
      rw [if_neg (by omega : ¬ b.pieces.length < b.pieces.length)]
    rw [hres]
    have hR : ∀ q ∈ b.pieces, inRange B q := fun q hq =>
      inRange_congr rfl rfl q (hwf.2.2 q hq)
    have hext : ∀ (qs : List Piece), contentsOf B qs = contentsOf b qs :=
      fun qs => contentsOf_congr rfl rfl qs
    have hptx : ∀ q : Piece, pieceText B q = pieceText b q :=
      fun q => pieceText_congr rfl rfl q
    refine ⟨rfl, ⟨?_, ?_, ?_⟩, ?_, rfl⟩
    · show b.total_length - n = sumLen _
      rw [sumLen_filter, sumLen_append, sumLen_cons, sumLen_nil]
      show b.total_length - n = sumLen (b.pieces.take i) + (so + 0)
      have hsplit := sumLen_split b.pieces i hi
      have hle := sumLen_take_le b.pieces i
      have htot := hwf.1
      rw [hwf.1]
      omega
    · intro p hp
      exact pos_of_mem_filter _ p hp
    · intro p hp
      have hp' := mem_filter_sub _ p hp
      rcases List.mem_append.mp hp' with h | h
      · exact hR p (List.mem_of_mem_take h)
      · rcases List.mem_cons.mp h with h | h
        · rw [h]
          exact inRange_within B (b.pieces.getD i dummyPiece) _ _
            (hR _ hmemI) (by omega)
        · simp at h
    · show contentsOf B _ = _
      have hfl : contentsOf B (removeZeroPieces (b.pieces.take i ++
          [⟨(b.pieces.getD i dummyPiece).source,
            (b.pieces.getD i dummyPiece).start, so⟩])) =
          contentsOf B (b.pieces.take i ++
          [⟨(b.pieces.getD i dummyPiece).source,
            (b.pieces.getD i dummyPiece).start, so⟩]) := contentsOf_filter B _
      rw [hfl, contentsOf_append, contentsOf_cons, contentsOf_nil, hext, hptx,
        pieceText_take_piece b _ _ (le_of_lt hsoLt)]
      have h1 : (contents b).take pos =
          contentsOf b (b.pieces.take i) ++
            (pieceText b (b.pieces.getD i dummyPiece)).take so := by
        rw [hposS, contents_take_at b hwf hi (le_of_lt hsoLt)]
      have h2 : (contents b).drop (pos + n) = [] := by
        rw [hpe, ← contents_length b hwf, List.drop_length]
      rw [h1, h2]
      simp [List.append_assoc]

/-! ### Failure behavior and invariant preservation -/

theorem buffer_insert_fail (b : Buffer) (pos : Nat) (s : List Char)
    (h : s = [] ∨ b.total_length < pos) : buffer_insert b pos s = (b, false) := by
  by_cases hs : s.isEmpty = true
  · rw [buffer_insert, if_pos hs]
  · have hpos : b.total_length < pos := by
      rcases h with h | h
      · exact absurd (by simp [h]) hs
      · exact h
    rw [buffer_insert, if_neg hs, if_pos (by omega)]

theorem buffer_delete_fail (b : Buffer) (pos n : Nat)
    (h : n = 0 ∨ b.total_length < pos + n) : buffer_delete b pos n = (b, false) := by
  by_cases h0 : n = 0
  · rw [buffer_delete, if_pos h0]
  · have hr : b.total_length < pos + n := by omega
    rw [buffer_delete, if_neg h0, if_pos (by omega)]

theorem buffer_insert_false_iff (b : Buffer) (pos : Nat) (s : List Char) (hwf : Wf b) :
    (buffer_insert b pos s).2 = false ↔ s = [] ∨ b.total_length < pos := by
  constructor
  · intro hfalse
    by_contra hcon
    push_neg at hcon
    have := (buffer_insert_spec b pos s hwf (by omega) hcon.1).1
    rw [this] at hfalse
    simp at hfalse
  · intro h
    rw [buffer_insert_fail b pos s h]

theorem buffer_delete_false_iff (b : Buffer) (pos n : Nat) (hwf : Wf b) :
    (buffer_delete b pos n).2 = false ↔ n = 0 ∨ b.total_length < pos + n := by
  constructor
  · intro hfalse
    by_contra hcon
    push_neg at hcon
    have := (buffer_delete_spec b pos n hwf (by omega) (by omega)).1
    rw [this] at hfalse
    simp at hfalse
  · intro h
    rw [buffer_delete_fail b pos n h]

theorem buffer_insert_wf (b : Buffer) (pos : Nat) (s : List Char) (hwf : Wf b) :
    Wf (buffer_insert b pos s).1 := by
  by_cases hs : s = []
  · rw [buffer_insert_fail b pos s (Or.inl hs)]
    exact hwf
  · by_cases hp : pos ≤ b.total_length
    · exact (buffer_insert_spec b pos s hwf hp hs).2.1
    · rw [buffer_insert_fail b pos s (Or.inr (by omega))]
      exact hwf

theorem buffer_delete_wf (b : Buffer) (pos n : Nat) (hwf : Wf b) :
    Wf (buffer_delete b pos n).1 := by
  by_cases h0 : n = 0
  · rw [buffer_delete_fail b pos n (Or.inl h0)]
    exact hwf
  · by_cases hr : pos + n ≤ b.total_length
    · exact (buffer_delete_spec b pos n hwf (by omega) hr).2.1
    · rw [buffer_delete_fail b pos n (Or.inr (by omega))]
      exact hwf

theorem buffer_create_wf (initial : List Char) : Wf (buffer_create initial) := by
  rw [buffer_create]
  by_cases h : initial.isEmpty = true
  · rw [if_pos h]
    exact ⟨rfl, by intro p hp; simp at hp, by intro p hp; simp at hp⟩
  · rw [if_neg h]
    refine ⟨?_, ?_, ?_⟩
    · show initial.length = sumLen [⟨Source.original, 0, initial.length⟩]
      simp [sumLen]
    · intro p hp
      simp only [List.mem_singleton] at hp
      rw [hp]
      show 0 < initial.length
      cases initial with
      | nil => simp at h
      | cons c cs => simp
    · intro p hp
      simp only [List.mem_singleton] at hp
      rw [hp]
      show 0 + initial.length ≤ initial.length
      omega

theorem applyOp_wf (b : Buffer) (op : EditOp) (hwf : Wf b) : Wf (applyOp b op) := by
  cases op with
  | ins pos t => exact buffer_insert_wf b pos t hwf
  | del pos n => exact buffer_delete_wf b pos n hwf

theorem applyOps_wf (b : Buffer) (ops : List EditOp) (hwf : Wf b) :
    Wf (applyOps b ops) := by
  induction ops generalizing b with
  | nil => exact hwf
  | cons op rest ih => exact ih (applyOp b op) (applyOp_wf b op hwf)

/-! ### Claims C1, C2, C3, C9 -/

/-- C1: for every well-formed buffer `B`, position `pos ≤ length(B)` and
non-empty byte string `s`, `buffer_insert(B, pos, s, |s|)` succeeds and the
resulting document content equals `get_all(B)[:pos] + s + get_all(B)[pos:]`. -/
theorem c1_insert_correct (b : Buffer) (pos : Nat) (s : List Char) (hwf : Wf b)
    (hpos : pos ≤ buffer_length b) (hs : s ≠ []) :
    (buffer_insert b pos s).2 = true ∧
    buffer_get_all (buffer_insert b pos s).1 =
      some ((getAllList b).take pos ++ s ++ (getAllList b).drop pos) := by
  obtain ⟨h1, h2, h3, _⟩ := buffer_insert_spec b pos s hwf hpos hs
  refine ⟨h1, ?_⟩
  rw [buffer_get_all_eq, getAllList_eq _ h2, h3, getAllList_eq _ hwf]

theorem c1_insert_correct_witness :
    (buffer_insert (buffer_create "Hello World".toList) 6 "Beautiful ".toList).2 = true ∧
    buffer_get_all
        (buffer_insert (buffer_create "Hello World".toList) 6 "Beautiful ".toList).1 =
      some ((getAllList (buffer_create "Hello World".toList)).take 6 ++
        "Beautiful ".toList ++ (getAllList (buffer_create "Hello World".toList)).drop 6) :=
  c1_insert_correct (buffer_create "Hello World".toList) 6 "Beautiful ".toList
    (by decide) (by decide) (by decide)

/-- C2: for every well-formed buffer `B` and `pos`, `n` with `n > 0` and
`pos + n ≤ length(B)`, `buffer_delete(B, pos, n)` succeeds and the resulting
document content equals `get_all(B)[:pos] + get_all(B)[pos+n:]`. -/
theorem c2_delete_correct (b : Buffer) (pos n : Nat) (hwf : Wf b)
    (hn : 0 < n) (hrange : pos + n ≤ buffer_length b) :
    (buffer_delete b pos n).2 = true ∧
    buffer_get_all (buffer_delete b pos n).1 =
      some ((getAllList b).take pos ++ (getAllList b).drop (pos + n)) := by
  obtain ⟨h1, h2, h3, _⟩ := buffer_delete_spec b pos n hwf hn hrange
  refine ⟨h1, ?_⟩
  rw [buffer_get_all_eq, getAllList_eq _ h2, h3, getAllList_eq _ hwf]

theorem c2_delete_correct_witness :
    (buffer_delete (buffer_create "line1\nline2\nline3".toList) 6 6).2 = true ∧
    buffer_get_all (buffer_delete (buffer_create "line1\nline2\nline3".toList) 6 6).1 =
      some ((getAllList (buffer_create "line1\nline2\nline3".toList)).take 6 ++
        (getAllList (buffer_create "line1\nline2\nline3".toList)).drop 12) :=
  c2_delete_correct (buffer_create "line1\nline2\nline3".toList) 6 6
    (by decide) (by decide) (by decide)

/-- C3: for every sequence of `buffer_insert`/`buffer_delete` operations
applied to a buffer created from any initial text, after every operation the
cached total length equals the sum of the piece lengths and the length of
`get_all()`, every piece has positive length, and every piece designates a
valid sub-range of its storage.  (Quantifying over all operation lists covers
the state after every prefix of a sequence.) -/
theorem c3_edit_invariants (initial : List Char) (ops : List EditOp) :
    (applyOps (buffer_create initial) ops).total_length =
      sumLen (applyOps (buffer_create initial) ops).pieces ∧
    buffer_get_all (applyOps (buffer_create initial) ops) =
      some (getAllList (applyOps (buffer_create initial) ops)) ∧
    (getAllList (applyOps (buffer_create initial) ops)).length =
      (applyOps (buffer_create initial) ops).total_length ∧
    (∀ p ∈ (applyOps (buffer_create initial) ops).pieces, 0 < p.length) ∧
    (∀ p ∈ (applyOps (buffer_create initial) ops).pieces,
      p.start + p.length ≤
        (storage (applyOps (buffer_create initial) ops) p.source).length) := by
  have hwf := applyOps_wf (buffer_create initial) ops (buffer_create_wf initial)
  refine ⟨hwf.1, buffer_get_all_eq _, ?_, hwf.2.1, fun p hp => hwf.2.2 p hp⟩
  rw [getAllList_eq _ hwf, contents_length _ hwf]

/-- C9: `buffer_insert`, `buffer_delete` and `buffer_replace` return false
exactly when their input is out of range or empty (insert with empty text or
`pos > length`; delete with `n = 0` or `pos + n > length`; replace exactly
when its delete sub-operation fails), and whenever any of them returns false
the document content observable through `get_all` is unchanged. -/
theorem c9_failure_no_op (b : Buffer) (hwf : Wf b) :
    (∀ pos s, ((buffer_insert b pos s).2 = false ↔ s = [] ∨ buffer_length b < pos) ∧
      ((buffer_insert b pos s).2 = false →
        buffer_get_all (buffer_insert b pos s).1 = buffer_get_all b)) ∧
    (∀ pos n, ((buffer_delete b pos n).2 = false ↔
        n = 0 ∨ buffer_length b < pos + n) ∧
      ((buffer_delete b pos n).2 = false →
        buffer_get_all (buffer_delete b pos n).1 = buffer_get_all b)) ∧
    (∀ pos n s, ((buffer_replace b pos n s).2 = false ↔
        (buffer_delete b pos n).2 = false) ∧
      ((buffer_replace b pos n s).2 = false →
        buffer_get_all (buffer_replace b pos n s).1 = buffer_get_all b)) := by
  have hdelcase : ∀ pos n, (buffer_delete b pos n).2 = false →
      buffer_delete b pos n = (b, false) := by
    intro pos n hfalse
    exact buffer_delete_fail b pos n ((buffer_delete_false_iff b pos n hwf).mp hfalse)
  refine ⟨?_, ?_, ?_⟩
  · intro pos s
    refine ⟨buffer_insert_false_iff b pos s hwf, ?_⟩
    intro hfalse
    rw [buffer_insert_fail b pos s ((buffer_insert_false_iff b pos s hwf).mp hfalse)]
  · intro pos n
    refine ⟨buffer_delete_false_iff b pos n hwf, ?_⟩
    intro hfalse
    rw [hdelcase pos n hfalse]
  · intro pos n s
    by_cases hd : (buffer_delete b pos n).2 = false
    · have hdel := hdelcase pos n hd
      have hrep : buffer_replace b pos n s = (b, false) := by
        rw [buffer_replace, hdel]
        simp
      rw [hrep]
      exact ⟨by simp [hd], fun _ => rfl⟩
    · have hd2 : (buffer_delete b pos n).2 = true := by
        cases hdd : (buffer_delete b pos n).2
        · exact absurd hdd hd
        · rfl
      have hvalid : ¬ (n = 0 ∨ b.total_length < pos + n) := by
        intro hcon
        rw [buffer_delete_fail b pos n hcon] at hd2
        simp at hd2
      push_neg at hvalid
      obtain ⟨hdt, hdwf, hdcon, hdtot⟩ :=
        buffer_delete_spec b pos n hwf (by omega) (by omega)
      have hrep2 : (buffer_replace b pos n s).2 = true := by
        rw [buffer_replace]
        simp only [hd2]
        by_cases hsl : 0 < s.length
        · have hins := (buffer_insert_spec (buffer_delete b pos n).1 pos s hdwf
            (by omega) (by intro hcon; rw [hcon] at hsl; simp at hsl)).1
          simp [hsl, hins]
        · simp [hsl]
      refine ⟨by simp [hrep2, hd2], ?_⟩
      intro hfalse
      rw [hrep2] at hfalse
      simp at hfalse

theorem c9_failure_no_op_witness :
    (∀ pos s, ((buffer_insert (buffer_create "ab".toList) pos s).2 = false ↔
        s = [] ∨ buffer_length (buffer_create "ab".toList) < pos) ∧
      ((buffer_insert (buffer_create "ab".toList) pos s).2 = false →
        buffer_get_all (buffer_insert (buffer_create "ab".toList) pos s).1 =
          buffer_get_all (buffer_create "ab".toList))) ∧
    (∀ pos n, ((buffer_delete (buffer_create "ab".toList) pos n).2 = false ↔
        n = 0 ∨ buffer_length (buffer_create "ab".toList) < pos + n) ∧
      ((buffer_delete (buffer_create "ab".toList) pos n).2 = false →
        buffer_get_all (buffer_delete (buffer_create "ab".toList) pos n).1 =
          buffer_get_all (buffer_create "ab".toList))) ∧
    (∀ pos n s, ((buffer_replace (buffer_create "ab".toList) pos n s).2 = false ↔
        (buffer_delete (buffer_create "ab".toList) pos n).2 = false) ∧
      ((buffer_replace (buffer_create "ab".toList) pos n s).2 = false →
        buffer_get_all (buffer_replace (buffer_create "ab".toList) pos n s).1 =
          buffer_get_all (buffer_create "ab".toList))) :=
  c9_failure_no_op (buffer_create "ab".toList) (by decide)

/-! ### The line index -/

theorem newlinePositions_bounds (t : List Char) :
    ∀ (i : Nat), ∀ x ∈ newlinePositions t i, i < x ∧ x ≤ i + t.length := by
  induction t with
  | nil => intro i x hx; simp [newlinePositions] at hx
  | cons c rest ih =>
    intro i x hx
    rw [newlinePositions] at hx
    by_cases hc : c = '\n'
    · rw [if_pos hc] at hx
      rcases List.mem_cons.mp hx with h | h
      · subst h
        simp only [List.length_cons]
        omega
      · have := ih (i + 1) x h
        simp only [List.length_cons]
        omega
    · rw [if_neg hc] at hx
      have := ih (i + 1) x hx
      simp only [List.length_cons]
      omega

theorem newlinePositions_chain (t : List Char) :
    ∀ (i : Nat), List.Chain' (· < ·) (newlinePositions t i) := by
  induction t with
  | nil => intro i; simp [newlinePositions]
  | cons c rest ih =>
    intro i
    rw [newlinePositions]
    by_cases hc : c = '\n'
    · rw [if_pos hc]
      refine List.chain'_cons'.mpr ⟨?_, ih (i + 1)⟩
      intro y hy
      have hmem : y ∈ newlinePositions rest (i + 1) := List.mem_of_mem_head? hy
      exact (newlinePositions_bounds rest (i + 1) y hmem).1
    · rw [if_neg hc]
      exact ih (i + 1)

theorem lineStartsOf_chain (t : List Char) :
    List.Chain' (· < ·) (lineStartsOf t) := by
  rw [lineStartsOf]
  refine List.chain'_cons'.mpr ⟨?_, newlinePositions_chain t 0⟩
  intro y hy
  have hmem : y ∈ newlinePositions t 0 := List.mem_of_mem_head? hy
  exact (newlinePositions_bounds t 0 y hmem).1

theorem lineStartsOf_length_pos (t : List Char) : 0 < (lineStartsOf t).length := by
  rw [lineStartsOf]
  simp

theorem lineStartsOf_getD_zero (t : List Char) : (lineStartsOf t).getD 0 0 = 0 := rfl

theorem lineStartsOf_mem_le (t : List Char) (x : Nat) (hx : x ∈ lineStartsOf t) :
    x ≤ t.length := by
  have hdef : lineStartsOf t = 0 :: newlinePositions t 0 := rfl
  rw [hdef] at hx
  rcases List.mem_cons.mp hx with h | h
  · omega
  · have := (newlinePositions_bounds t 0 x h).2
    omega

theorem lineStartsOf_getD_le (t : List Char) (k : Nat) :
    (lineStartsOf t).getD k 0 ≤ t.length := by
  by_cases hk : k < (lineStartsOf t).length
  · rw [List.getD_eq_getElem _ _ hk]
    exact lineStartsOf_mem_le t _ (List.getElem_mem hk)
  · rw [List.getD_eq_default _ _ (by omega)]
    omega

theorem chain_getD_lt (l : List Nat) (hc : List.Chain' (· < ·) l) (k : Nat)
    (hk : k + 1 < l.length) : l.getD k 0 < l.getD (k + 1) 0 := by
  rw [List.getD_eq_getElem _ _ (by omega), List.getD_eq_getElem _ _ hk]
  have h := List.chain'_iff_get.mp hc k (by omega)
  simpa using h

/-! ### The pos_to_line_col scanning loop -/

theorem ptlcAux_spec (starts : List Nat) (p : Nat) :
    ∀ (fuel i line col : Nat), starts.length - i ≤ fuel → i < starts.length →
      starts.getD i 0 ≤ p →
      ∃ j, i ≤ j ∧ j < starts.length ∧
        ptlcAux starts starts.length p fuel i line col =
          (j, p - starts.getD j 0) ∧
        starts.getD j 0 ≤ p ∧
        (j + 1 < starts.length → p < starts.getD (j + 1) 0) := by
  intro fuel
  induction fuel with
  | zero => intro i line col hf hi hle; omega
  | succ m ih =>
    intro i line col hf hi hle
    rw [ptlcAux, if_pos hi]
    by_cases hb : i + 1 < starts.length ∧ starts.getD (i + 1) 0 ≤ p
    · rw [if_pos hb]
      obtain ⟨j, h1, h2, h3, h4, h5⟩ :=
        ih (i + 1) (i + 1) (p - starts.getD (i + 1) 0) (by omega) hb.1 hb.2
      exact ⟨j, by omega, h2, h3, h4, h5⟩
    · rw [if_neg hb, if_pos hle]
      refine ⟨i, le_refl i, hi, rfl, hle, ?_⟩
      intro h1
      by_contra hcon
      push_neg at hcon
      exact hb ⟨h1, hcon⟩

/-! ### Claims C5 and C6 -/

theorem line_col_to_pos_formula (b : Buffer) (l c : Nat)
    (hl : l < buffer_line_count b) :
    buffer_line_col_to_pos b l c =
      (lineStarts b).getD l 0 + min c (buffer_line_length b l) := by
  rw [buffer_line_col_to_pos]
  rw [if_neg (by omega : ¬ l ≥ buffer_line_count b)]
  show (lineStarts b).getD l 0 +
    (if c > buffer_line_length b l then buffer_line_length b l else c) = _
  congr 1
  by_cases h : c > buffer_line_length b l
  · rw [if_pos h]; omega
  · rw [if_neg h]; omega

theorem line_length_mid (b : Buffer) (l : Nat)
    (h2 : l + 1 < buffer_line_count b) :
    buffer_line_length b l =
      (lineStarts b).getD (l + 1) 0 - (lineStarts b).getD l 0 := by
  rw [buffer_line_length, if_neg (by omega), if_pos h2]

theorem line_length_last (b : Buffer) (l : Nat) (h1 : l < buffer_line_count b)
    (h2 : ¬ l + 1 < buffer_line_count b) :
    buffer_line_length b l = b.total_length - (lineStarts b).getD l 0 := by
  rw [buffer_line_length, if_neg (by omega), if_neg h2]

/-- C6: for every well-formed buffer and every position `p ≤ length`,
converting `p` to `(line, column)` with `buffer_pos_to_line_col` and back
with `buffer_line_col_to_pos` yields `p` again. -/
theorem c6_line_col_roundtrip (b : Buffer) (p : Nat) (hwf : Wf b)
    (hp : p ≤ buffer_length b) :
    buffer_line_col_to_pos b (buffer_pos_to_line_col b p).1
      (buffer_pos_to_line_col b p).2 = p := by
  have hlen : (getAllList b).length = b.total_length := by
    rw [getAllList_eq b hwf, contents_length b hwf]
  have hcount : 0 < (lineStarts b).length := lineStartsOf_length_pos (getAllList b)
  have hchain : List.Chain' (· < ·) (lineStarts b) := lineStartsOf_chain (getAllList b)
  have hzero : (lineStarts b).getD 0 0 = 0 := lineStartsOf_getD_zero (getAllList b)
  have hple : (lineStarts b).getD 0 0 ≤ p := by omega
  obtain ⟨j, _, hj, heq, hjle, hjlt⟩ :=
    ptlcAux_spec (lineStarts b) p ((lineStarts b).length) 0 0 p
      (by omega) hcount hple
  have hres : buffer_pos_to_line_col b p = (j, p - (lineStarts b).getD j 0) := heq
  rw [hres]
  show buffer_line_col_to_pos b j (p - (lineStarts b).getD j 0) = p
  have hcc : buffer_line_count b = (lineStarts b).length := rfl
  have hbl : buffer_length b = b.total_length := rfl
  have hjtot : (lineStarts b).getD j 0 ≤ b.total_length := by
    have := lineStartsOf_getD_le (getAllList b) j
    omega
  rw [line_col_to_pos_formula b j _ (by omega)]
  by_cases hj1 : j + 1 < buffer_line_count b
  · rw [line_length_mid b j hj1]
    have hnext := hjlt (by omega)
    have hmono := chain_getD_lt (lineStarts b) hchain j (by omega)
    omega
  · rw [line_length_last b j (by omega) hj1]
    omega

theorem c6_line_col_roundtrip_witness :
    buffer_line_col_to_pos (buffer_create "ab\ncd".toList)
      (buffer_pos_to_line_col (buffer_create "ab\ncd".toList) 4).1
      (buffer_pos_to_line_col (buffer_create "ab\ncd".toList) 4).2 = 4 :=
  c6_line_col_roundtrip (buffer_create "ab\ncd".toList) 4 (by decide) (by decide)

/-- C5 counterexample: on the document "ab\ncd", `buffer_line_col_to_pos 0 5`
clamps the column to line 0's full length 3 (including the newline) and
returns 3, which is the next line's start offset — not strictly below it, and
not `2` (the line length minus its newline) as the claim requires. -/
theorem c5_counterexample :
    buffer_line_col_to_pos (buffer_create "ab\ncd".toList) 0 5 = 3 ∧
    buffer_line_start (buffer_create "ab\ncd".toList) 1 = 3 ∧
    ¬ buffer_line_col_to_pos (buffer_create "ab\ncd".toList) 0 5 <
        buffer_line_start (buffer_create "ab\ncd".toList) 1 := by
  decide

/-- C5 (amended): `buffer_line_col_to_pos(l, c)` clamps `l` to the last line
and `c` to that line's full length INCLUDING any trailing newline, returning
the clamped line's start offset plus the clamped column; for a non-final line
the returned position is at most (not strictly less than) the next line's
start offset. -/
theorem c5_line_col_clamp (b : Buffer) (l c : Nat) :
    buffer_line_col_to_pos b l c =
      buffer_line_start b (min l (buffer_line_count b - 1)) +
        min c (buffer_line_length b (min l (buffer_line_count b - 1))) ∧
    (min l (buffer_line_count b - 1) + 1 < buffer_line_count b →
      buffer_line_col_to_pos b l c ≤
        buffer_line_start b (min l (buffer_line_count b - 1) + 1)) := by
  have hcount : 0 < buffer_line_count b := lineStartsOf_length_pos (getAllList b)
  have hchain : List.Chain' (· < ·) (lineStarts b) := lineStartsOf_chain (getAllList b)
  have hline : (if l ≥ buffer_line_count b then buffer_line_count b - 1 else l) =
      min l (buffer_line_count b - 1) := by
    by_cases h : l ≥ buffer_line_count b
    · rw [if_pos h]; omega
    · rw [if_neg h]; omega
  have hlt : min l (buffer_line_count b - 1) < buffer_line_count b := by omega
  have hstart : buffer_line_start b (min l (buffer_line_count b - 1)) =
      (lineStarts b).getD (min l (buffer_line_count b - 1)) 0 := by
    rw [buffer_line_start, if_neg (by omega)]
  constructor
  · rw [buffer_line_col_to_pos, hline, hstart]
    congr 1
    by_cases h : c > buffer_line_length b (min l (buffer_line_count b - 1))
    · rw [if_pos h]; omega
    · rw [if_neg h]; omega
  · intro hnf
    have hmono := chain_getD_lt (lineStarts b) hchain
      (min l (buffer_line_count b - 1)) hnf
    have hll : buffer_line_length b (min l (buffer_line_count b - 1)) =
        (lineStarts b).getD (min l (buffer_line_count b - 1) + 1) 0 -
          (lineStarts b).getD (min l (buffer_line_count b - 1)) 0 := by
      rw [buffer_line_length, if_neg (by omega), if_pos hnf]
    have hstart2 : buffer_line_start b (min l (buffer_line_count b - 1) + 1) =
        (lineStarts b).getD (min l (buffer_line_count b - 1) + 1) 0 := by
      rw [buffer_line_start, if_neg (by omega)]
    rw [buffer_line_col_to_pos, hline, hstart2]
    by_cases h : c > buffer_line_length b (min l (buffer_line_count b - 1))
    · rw [if_pos h, hll]
      omega
    · rw [if_neg h]
      rw [hll] at h
      omega

/-! ### The find_next scanning loop -/

theorem find_next_aux_spec (t pat : List Char) (total : Nat) :
    ∀ (fuel i : Nat), total + 1 - i ≤ fuel →
      (∀ k, find_next_aux t pat total i = some k →
        i ≤ k ∧ occursAt t pat total k ∧
        ∀ j, i ≤ j → j < k → ¬ occursAt t pat total j) ∧
      (find_next_aux t pat total i = none →
        ∀ j, i ≤ j → ¬ occursAt t pat total j) := by
  intro fuel
  induction fuel with
  | zero =>
    intro i hf
    rw [find_next_aux, dif_neg (by omega : ¬ i + pat.length ≤ total)]
    constructor
    · intro k hk
      exact absurd hk (by simp)
    · intro _ j hj hocc
      have := hocc.1
      omega
  | succ m ih =>
    intro i hf
    rw [find_next_aux]
    by_cases hg : i + pat.length ≤ total
    · rw [dif_pos hg]
      by_cases hm : matchesAt t pat i = true
      · rw [if_pos hm]
        constructor
        · intro k hk
          simp only [Option.some.injEq] at hk
          subst hk
          refine ⟨le_refl i, ⟨hg, of_decide_eq_true hm⟩, ?_⟩
          intro j hj hjk
          omega
        · intro hcontra
          simp at hcontra
      · rw [if_neg hm]
        have hocc_i : ¬ occursAt t pat total i := by
          intro hocc
          exact hm (decide_eq_true hocc.2)
        obtain ⟨hsome, hnone⟩ := ih (i + 1) (by omega)
        constructor
        · intro k hk
          obtain ⟨h1, h2, h3⟩ := hsome k hk
          refine ⟨by omega, h2, ?_⟩
          intro j hj hjk
          rcases Nat.eq_or_lt_of_le hj with he | hl
          · rw [← he]
            exact hocc_i
          · exact h3 j (by omega) hjk
        · intro hn j hj hocc
          rcases Nat.eq_or_lt_of_le hj with he | hl
          · rw [← he] at hocc
            exact hocc_i hocc
          · exact hnone hn j (by omega) hocc
    · rw [dif_neg hg]
      constructor
      · intro k hk
        exact absurd hk (by simp)
      · intro _ j hj hocc
        have := hocc.1
        omega

theorem buffer_find_next_spec (b : Buffer) (start : Nat) (pat : List Char)
    (hpat : pat ≠ []) :
    (∀ k, buffer_find_next b start pat = some k →
      start ≤ k ∧ occursAt (getAllList b) pat b.total_length k ∧
      ∀ j, start ≤ j → j < k → ¬ occursAt (getAllList b) pat b.total_length j) ∧
    (buffer_find_next b start pat = none →
      ∀ j, start ≤ j → ¬ occursAt (getAllList b) pat b.total_length j) := by
  have hne : pat.isEmpty = false := by
    cases pat with
    | nil => exact absurd rfl hpat
    | cons c cs => rfl
  rw [buffer_find_next, if_neg (by simp [hne])]
  exact find_next_aux_spec (getAllList b) pat b.total_length
    (b.total_length + 1) start (by omega)

/-! ### Claim C7 -/

/-- C7: with a non-empty stored pattern, `search_next` moves the cursor to
the smallest offset `≥ cursor + 1` at which the pattern literally occurs; if
there is none it wraps around and moves to the smallest occurrence offset
from 0, returning success; `occursAt` includes the fact that the document
bytes at the new cursor position equal the pattern.  If the pattern occurs
nowhere, `search_next` returns failure and the state is unchanged. -/
theorem c7_search_next (e : EditorState) (hpat : e.search_pattern ≠ []) :
    ((∃ i, e.cursor_pos + 1 ≤ i ∧
        occursAt (getAllList e.buffer) e.search_pattern e.buffer.total_length i) →
      (search_next e).2 = true ∧
      e.cursor_pos + 1 ≤ (search_next e).1.cursor_pos ∧
      occursAt (getAllList e.buffer) e.search_pattern e.buffer.total_length
        (search_next e).1.cursor_pos ∧
      (∀ j, e.cursor_pos + 1 ≤ j →
        occursAt (getAllList e.buffer) e.search_pattern e.buffer.total_length j →
        (search_next e).1.cursor_pos ≤ j)) ∧
    (((¬ ∃ i, e.cursor_pos + 1 ≤ i ∧
        occursAt (getAllList e.buffer) e.search_pattern e.buffer.total_length i) ∧
      (∃ i, occursAt (getAllList e.buffer) e.search_pattern e.buffer.total_length i)) →
      (search_next e).2 = true ∧
      occursAt (getAllList e.buffer) e.search_pattern e.buffer.total_length
        (search_next e).1.cursor_pos ∧
      (∀ j, occursAt (getAllList e.buffer) e.search_pattern e.buffer.total_length j →
        (search_next e).1.cursor_pos ≤ j)) ∧
    ((¬ ∃ i, occursAt (getAllList e.buffer) e.search_pattern e.buffer.total_length i) →
      search_next e = (e, false)) := by
  have hne : e.search_pattern.isEmpty = false := by
    cases hsp : e.search_pattern with
    | nil => exact absurd hsp hpat
    | cons c cs => rfl
  rcases hfind : buffer_find_next e.buffer (e.cursor_pos + 1) e.search_pattern
    with _ | k
  · -- no occurrence at or after cursor + 1
    have hnone := (buffer_find_next_spec e.buffer (e.cursor_pos + 1)
      e.search_pattern hpat).2 hfind
    rcases hfind0 : buffer_find_next e.buffer 0 e.search_pattern with _ | k0
    · -- no occurrence anywhere
      have hnone0 := (buffer_find_next_spec e.buffer 0 e.search_pattern hpat).2 hfind0
      have hres : search_next e = (e, false) := by
        rw [search_next, if_neg (by simp [hne]), hfind, hfind0]
      rw [hres]
      refine ⟨?_, ?_, fun _ => rfl⟩
      · intro ⟨i, hi1, hi2⟩
        exact absurd hi2 (hnone i hi1)
      · intro ⟨_, ⟨i, hi⟩⟩
        exact absurd hi (hnone0 i (Nat.zero_le i))
    · -- wrap-around hit at k0
      obtain ⟨_, hocc0, hmin0⟩ := (buffer_find_next_spec e.buffer 0
        e.search_pattern hpat).1 k0 hfind0
      have hres : search_next e =
          ({ update_cursor_line_col { e with cursor_pos := k0 } with
              preferred_column :=
                (update_cursor_line_col { e with cursor_pos := k0 }).cursor_col },
            true) := by
        rw [search_next, if_neg (by simp [hne]), hfind, hfind0]
      have hcur : (search_next e).1.cursor_pos = k0 := by
        rw [hres]
        rfl
      have hb2 : (search_next e).2 = true := by
        rw [hres]
      refine ⟨?_, ?_, ?_⟩
      · intro ⟨i, hi1, hi2⟩
        exact absurd hi2 (hnone i hi1)
      · intro _
        refine ⟨hb2, ?_, ?_⟩
        · rw [hcur]
          exact hocc0
        · intro j hj
          rw [hcur]
          by_contra hcon
          push_neg at hcon
          exact hmin0 j (Nat.zero_le j) hcon hj
      · intro hnocc
        exact absurd ⟨k0, hocc0⟩ hnocc
  · -- direct hit at k ≥ cursor + 1
    obtain ⟨hk1, hocc, hmin⟩ := (buffer_find_next_spec e.buffer (e.cursor_pos + 1)
      e.search_pattern hpat).1 k hfind
    have hres : search_next e =
        ({ update_cursor_line_col { e with cursor_pos := k } with
            preferred_column :=
              (update_cursor_line_col { e with cursor_pos := k }).cursor_col },
          true) := by
      rw [search_next, if_neg (by simp [hne]), hfind]
    have hcur : (search_next e).1.cursor_pos = k := by
      rw [hres]
      rfl
    have hb2 : (search_next e).2 = true := by
      rw [hres]
    refine ⟨?_, ?_, ?_⟩
    · intro _
      refine ⟨hb2, by rw [hcur]; exact hk1, by rw [hcur]; exact hocc, ?_⟩
      intro j hj hjocc
      rw [hcur]
      by_contra hcon
      push_neg at hcon
      exact hmin j hj hcon hjocc
    · intro ⟨hno, _⟩
      exact absurd ⟨k, hk1, hocc⟩ hno
    · intro hnocc
      exact absurd ⟨k, hocc⟩ hnocc

theorem c7_search_next_witness :
    ((∃ i, c7demo.cursor_pos + 1 ≤ i ∧
        occursAt (getAllList c7demo.buffer) c7demo.search_pattern
          c7demo.buffer.total_length i) →
      (search_next c7demo).2 = true ∧
      c7demo.cursor_pos + 1 ≤ (search_next c7demo).1.cursor_pos ∧
      occursAt (getAllList c7demo.buffer) c7demo.search_pattern
        c7demo.buffer.total_length (search_next c7demo).1.cursor_pos ∧
      (∀ j, c7demo.cursor_pos + 1 ≤ j →
        occursAt (getAllList c7demo.buffer) c7demo.search_pattern
          c7demo.buffer.total_length j →
        (search_next c7demo).1.cursor_pos ≤ j)) ∧
    (((¬ ∃ i, c7demo.cursor_pos + 1 ≤ i ∧
        occursAt (getAllList c7demo.buffer) c7demo.search_pattern
          c7demo.buffer.total_length i) ∧
      (∃ i, occursAt (getAllList c7demo.buffer) c7demo.search_pattern
        c7demo.buffer.total_length i)) →
      (search_next c7demo).2 = true ∧
      occursAt (getAllList c7demo.buffer) c7demo.search_pattern
        c7demo.buffer.total_length (search_next c7demo).1.cursor_pos ∧
      (∀ j, occursAt (getAllList c7demo.buffer) c7demo.search_pattern
          c7demo.buffer.total_length j →
        (search_next c7demo).1.cursor_pos ≤ j)) ∧
    ((¬ ∃ i, occursAt (getAllList c7demo.buffer) c7demo.search_pattern
        c7demo.buffer.total_length i) →
      search_next c7demo = (c7demo, false)) :=
  c7_search_next c7demo (by decide)

/-! ### Cursor helpers -/

theorem update_cursor_pos (e : EditorState) :
    (update_cursor_line_col e).cursor_pos = e.cursor_pos := rfl

theorem update_cursor_buffer (e : EditorState) :
    (update_cursor_line_col e).buffer = e.buffer := rfl

theorem clamp_cursor_pos (e : EditorState)
    (h : e.cursor_pos ≤ buffer_length e.buffer) :
    (clamp_cursor e).cursor_pos = e.cursor_pos := by
  rw [clamp_cursor]
  rw [if_neg (by omega : ¬ e.cursor_pos > buffer_length e.buffer)]
  exact update_cursor_pos e

theorem clamp_cursor_buffer (e : EditorState) :
    (clamp_cursor e).buffer = e.buffer := by
  rw [clamp_cursor]
  by_cases h : e.cursor_pos > buffer_length e.buffer
  · rw [if_pos h]
    exact update_cursor_buffer _
  · rw [if_neg h]
    exact update_cursor_buffer _

/-! ### Claim C8 -/

/-- C8 counterexample: the document "a\n" is non-empty, but with the cursor
at position 2 — on the empty trailing line, whose `buffer_line_length` is 0 —
`delete_line` fails (`buffer_delete` rejects a zero-length deletion) instead
of succeeding as the claim requires for every non-empty document and cursor
position. -/
theorem c8_counterexample :
    0 < buffer_length c8edge.buffer ∧
    c8edge.cursor_line = 1 ∧
    (delete_line c8edge).2 = false ∧
    (delete_line c8edge).1 = c8edge := by
  decide

/-- C8 (amended): whenever the current line is non-empty (its length,
including any trailing newline, is positive — which holds for every line of a
non-empty document except the empty trailing line after a final newline),
`delete_line` removes exactly the bytes
`[line_start(line), line_start(line) + line_length(line))`, returns success,
and leaves the cursor at the start of what was the current line (the clamp to
the new total length never moves it, since that start is ≤ the new length);
when the current line has length 0, `delete_line` returns failure and leaves
the state unchanged. -/
theorem c8_delete_line (e : EditorState) (hwf : Wf e.buffer)
    (hl : 0 < buffer_line_length e.buffer e.cursor_line) :
    (delete_line e).2 = true ∧
    buffer_get_all (delete_line e).1.buffer =
      some ((getAllList e.buffer).take (buffer_line_start e.buffer e.cursor_line) ++
        (getAllList e.buffer).drop (buffer_line_start e.buffer e.cursor_line +
          buffer_line_length e.buffer e.cursor_line)) ∧
    (delete_line e).1.cursor_pos = buffer_line_start e.buffer e.cursor_line := by
  have hlc : e.cursor_line < buffer_line_count e.buffer := by
    by_contra hcon
    rw [buffer_line_length, if_pos (by omega)] at hl
    simp at hl
  have hlen : (getAllList e.buffer).length = e.buffer.total_length := by
    rw [getAllList_eq _ hwf, contents_length _ hwf]
  have hstart : buffer_line_start e.buffer e.cursor_line =
      (lineStarts e.buffer).getD e.cursor_line 0 := by
    rw [buffer_line_start, if_neg (by omega)]
  have hchain : List.Chain' (· < ·) (lineStarts e.buffer) :=
    lineStartsOf_chain (getAllList e.buffer)
  have hcc : buffer_line_count e.buffer = (lineStarts e.buffer).length := rfl
  have hsle : (lineStarts e.buffer).getD e.cursor_line 0 ≤ e.buffer.total_length := by
    have h := lineStartsOf_getD_le (getAllList e.buffer) e.cursor_line
    rw [hlen] at h
    exact h
  have hrange : buffer_line_start e.buffer e.cursor_line +
      buffer_line_length e.buffer e.cursor_line ≤ e.buffer.total_length := by
    by_cases hmid : e.cursor_line + 1 < buffer_line_count e.buffer
    · rw [hstart, line_length_mid e.buffer e.cursor_line hmid]
      have hnext := chain_getD_lt (lineStarts e.buffer) hchain e.cursor_line (by omega)
      have hnle : (lineStarts e.buffer).getD (e.cursor_line + 1) 0 ≤
          e.buffer.total_length := by
        have h := lineStartsOf_getD_le (getAllList e.buffer) (e.cursor_line + 1)
        rw [hlen] at h
        exact h
      omega
    · rw [hstart, line_length_last e.buffer e.cursor_line (by omega) hmid]
      omega
  obtain ⟨h1, h2, h3, h4⟩ := buffer_delete_spec e.buffer
    (buffer_line_start e.buffer e.cursor_line)
    (buffer_line_length e.buffer e.cursor_line) hwf hl hrange
  have hres : delete_line e =
      (clamp_cursor { e with
        buffer := (buffer_delete e.buffer (buffer_line_start e.buffer e.cursor_line)
          (buffer_line_length e.buffer e.cursor_line)).1,
        cursor_pos := buffer_line_start e.buffer e.cursor_line }, true) := by
    rw [delete_line, if_pos h1]
  refine ⟨by rw [hres], ?_, ?_⟩
  · have hbuf : (delete_line e).1.buffer =
        (buffer_delete e.buffer (buffer_line_start e.buffer e.cursor_line)
          (buffer_line_length e.buffer e.cursor_line)).1 := by
      rw [hres]
      exact clamp_cursor_buffer _
    rw [hbuf, buffer_get_all_eq, getAllList_eq _ h2, h3, getAllList_eq _ hwf]
  · rw [hres]
    have hle2 : buffer_line_start e.buffer e.cursor_line ≤
        (buffer_delete e.buffer (buffer_line_start e.buffer e.cursor_line)
          (buffer_line_length e.buffer e.cursor_line)).1.total_length := by
      rw [h4]
      omega
    exact clamp_cursor_pos _ hle2

theorem c8_delete_line_witness :
    (delete_line c8demo).2 = true ∧
    buffer_get_all (delete_line c8demo).1.buffer =
      some ((getAllList c8demo.buffer).take
          (buffer_line_start c8demo.buffer c8demo.cursor_line) ++
        (getAllList c8demo.buffer).drop
          (buffer_line_start c8demo.buffer c8demo.cursor_line +
            buffer_line_length c8demo.buffer c8demo.cursor_line)) ∧
    (delete_line c8demo).1.cursor_pos =
      buffer_line_start c8demo.buffer c8demo.cursor_line :=
  c8_delete_line c8demo (by decide) (by decide)

/-! ### Claim C4 -/

theorem wordEndScan_all (b : Buffer)
    (h : ∀ q, isWordSep (buffer_char_at b q) = false) :
    ∀ (fuel bound pos : Nat), bound - pos ≤ fuel → pos ≤ bound →
      wordEndScan b bound pos = bound := by
  intro fuel
  induction fuel with
  | zero =>
    intro bound pos hf hp
    rw [wordEndScan, if_neg (by omega : ¬ pos < bound)]
    omega
  | succ m ih =>
    intro bound pos hf hp
    rw [wordEndScan]
    by_cases hlt : pos < bound
    · rw [if_pos hlt, h (pos + 1)]
      rw [if_neg (by simp : ¬ (false : Bool) = true)]
      exact ih bound (pos + 1) (by omega) (by omega)
    · rw [if_neg hlt]
      omega

/-- C4 is violated by the code: on the empty buffer produced by
`editor_init`, the bound of `motion_e`'s end-of-word loop is the `size_t`
value of `len - 1`, which underflows to `2^32 - 1`; `buffer_char_at` returns
the NUL sentinel past the end, which is not whitespace, so the loop never
breaks and the cursor lands at `4294967295` — far beyond the buffer length 0.
The claim requires every motion on the empty buffer to leave the cursor at 0
and the cursor to stay ≤ the buffer length after every operation.
(`delete_text` likewise never re-clamps the cursor after shrinking the
document.) -/
theorem c4_motion_e_empty_buffer :
    buffer_length (motion_e init_state).buffer = 0 ∧
    (motion_e init_state).cursor_pos = 4294967295 := by
  have h0 : init_state.buffer.total_length = 0 := rfl
  constructor
  · rfl
  · have hchar : ∀ q, isWordSep (buffer_char_at init_state.buffer q) = false := by
      intro q
      rw [buffer_char_at, if_pos (by omega : q ≥ init_state.buffer.total_length)]
      rfl
    show wordEndScan init_state.buffer
      ((buffer_length init_state.buffer + (SIZE_MOD - 1)) % SIZE_MOD)
      (skipSpace init_state.buffer (buffer_length init_state.buffer)
        (if init_state.cursor_pos < buffer_length init_state.buffer
         then init_state.cursor_pos + 1 else init_state.cursor_pos)) = 4294967295
    have hb : buffer_length init_state.buffer = 0 := rfl
    rw [hb]
    have hskip : skipSpace init_state.buffer 0
        (if init_state.cursor_pos < 0 then init_state.cursor_pos + 1
         else init_state.cursor_pos) = 0 := by
      rw [if_neg (by omega)]
      rw [skipSpace, if_neg (by omega : ¬ init_state.cursor_pos < 0)]
      rfl
    rw [hskip]
    have hmod : (0 + (SIZE_MOD - 1)) % SIZE_MOD = 4294967295 := by
      rw [SIZE_MOD]
    rw [hmod]
    exact wordEndScan_all init_state.buffer hchar 4294967296 4294967295 0
      (by omega) (by omega)

/-! ### Claim C10 -/

/-- C10: `editor_load_text` resets the cursor to position 0, line 0,
column 0, but — unlike `editor_init`, which clears the selection and resets
the mode — leaves the mode, the `has_selection` flag and the selection anchor
unchanged.  Consequently, loading a document shorter than the previous one
while a selection is active leaves a stale anchor, and `get_selection_end`
then returns an offset past the end of the new document (the concrete
scenario: select at position 5 of "hello", then load "a"). -/
theorem c10_load_text_keeps_selection :
    (∀ e t, (editor_load_text e t).mode = e.mode ∧
      (editor_load_text e t).has_selection = e.has_selection ∧
      (editor_load_text e t).selection_start = e.selection_start ∧
      (editor_load_text e t).cursor_pos = 0 ∧
      (editor_load_text e t).cursor_line = 0 ∧
      (editor_load_text e t).cursor_col = 0) ∧
    (∀ e, (editor_init e).mode = EditorMode.normal ∧
      (editor_init e).has_selection = false) ∧
    buffer_length (editor_load_text (set_mode (set_cursor_position
        (editor_load_text init_state ("hello".toList)) 5) EditorMode.visual)
        ("a".toList)).buffer <
      get_selection_end (editor_load_text (set_mode (set_cursor_position
        (editor_load_text init_state ("hello".toList)) 5) EditorMode.visual)
        ("a".toList)) := by
  refine ⟨fun e t => ⟨rfl, rfl, rfl, rfl, rfl, rfl⟩, fun e => ⟨rfl, rfl⟩, ?_⟩
  decide
